import Mathlib

/-!
Verification of the Canvas assignment notifier pipeline.

This file gives a shallow embedding of the language-agnostic core of the
repository (AI_BotV2.py, canvas_messeger.py, agentic_bot_test_manus.py):
the ISO-8601 date normalizer, the HTML sanitizer, the AI estimation
adapter with its numeric-token extraction, the due-date window filter,
the stable sort of the aggregated records, the MarkdownV2 escaper and the
out-of-range error path of the details command, the SMS chunker, and the
per-session assignment index.

Conventions:
- Python strings are modelled as `List Char`.
- Timezone-aware datetimes are modelled by the instant they denote, as a
  count of microseconds since 1970-01-01T00:00:00 UTC (`Int`).  Converting
  an aware datetime to another timezone (`astimezone`) preserves the
  instant, and comparison of aware datetimes compares instants, so the
  window filter and the sort are faithfully represented on instants.
- Python floats produced by `round(x, 1)` are modelled exactly by the
  number of tenths they denote (`Nat`): the rounding is round-half-to-even
  on the exact decimal value of the extracted token (binary
  floating-point representation error is abstracted away), and a bridge
  theorem relates the tenths value to the rational-valued rounding.
- Calls to the LLM chat endpoint (`ollama.chat`) are modelled by an
  oracle function `List Char → Option (List Char)`; `none` models a
  transport failure (the code catches every exception and degrades to
  "no estimate").  Operations also return the list of prompt contents
  they sent, so that "the endpoint is never invoked" is expressible.
-/

/-! ## Small character and digit utilities -/

/-- Numeric value of a decimal digit character. -/
def digitVal (c : Char) : Nat := c.toNat - 48

/-- Read exactly `n` decimal digits, returning their value and the rest. -/
def readDigitsAux : Nat → Nat → List Char → Option (Nat × List Char)
  | 0, acc, l => some (acc, l)
  | _ + 1, _, [] => none
  | n + 1, acc, c :: l =>
    if c.isDigit then readDigitsAux n (acc * 10 + digitVal c) l else none

/-- Read exactly `n` decimal digits from the front of `l`. -/
def readNDigits (n : Nat) (l : List Char) : Option (Nat × List Char) :=
  readDigitsAux n 0 l

/-- Consume one expected character. -/
def expectChar (c : Char) : List Char → Option (List Char)
  | [] => none
  | d :: l => if d = c then some l else none

/-! ## Calendar arithmetic (model of the proleptic Gregorian calendar used
by Python `datetime`) -/

/-- Gregorian leap-year rule. -/
def isLeapYear (y : Nat) : Bool :=
  (y % 4 == 0 && y % 100 != 0) || y % 400 == 0

/-- Number of days in a month. -/
def daysInMonth (y m : Nat) : Nat :=
  if m == 2 then (if isLeapYear y then 29 else 28)
  else if m == 4 || m == 6 || m == 9 || m == 11 then 30
  else 31

/-- Days from 1970-01-01 to year/month/day (Hinnant civil-from-days
algorithm, as used by every proleptic Gregorian implementation). -/
def daysFromCivil (y m d : Nat) : Int :=
  let yi : Int := if m ≤ 2 then (y : Int) - 1 else (y : Int)
  let era : Int := (if 0 ≤ yi then yi else yi - 399) / 400
  let yoe : Int := yi - era * 400
  let mp : Int := ((m : Int) + 9) % 12
  let doy : Int := (153 * mp + 2) / 5 + (d : Int) - 1
  let doe : Int := yoe * 365 + yoe / 4 - yoe / 100 + doy
  era * 146097 + doe - 719468

/-! ## Model of `datetime.fromisoformat`

The repository feeds Canvas timestamps (`YYYY-MM-DDTHH:MM:SS` with an
optional fractional second and an optional `+HH:MM` offset, the trailing
`Z` having been rewritten by the caller) to `datetime.fromisoformat`.
The model covers exactly this fragment: a full date, an optional time
introduced by `T` or a space, an optional fraction of 1 to 6 digits, and
an optional `±HH:MM` offset.  A parsed value records the wall-clock
reading (`naive`, in microseconds since the epoch read as if UTC) and the
explicit offset in minutes when one was present. -/

structure PyDatetime where
  naive : Int
  offsetMinutes : Option Int
  deriving Repr, DecidableEq

/-- Fractional seconds: a dot followed by 1 to 6 digits, scaled to
microseconds.  Absent fraction parses as zero microseconds. -/
def readFraction (l : List Char) : Option (Nat × List Char) :=
  match l with
  | '.' :: rest =>
    let ds := rest.takeWhile Char.isDigit
    if 1 ≤ ds.length ∧ ds.length ≤ 6 then
      some ((ds.foldl (fun a c => a * 10 + digitVal c) 0) * 10 ^ (6 - ds.length),
            rest.drop ds.length)
    else none
  | _ => some (0, l)

/-- Model of `datetime.fromisoformat` on the fragment described above. -/
def fromisoformat (l : List Char) : Option PyDatetime := do
  let (y, l) ← readNDigits 4 l
  let l ← expectChar '-' l
  let (mo, l) ← readNDigits 2 l
  let l ← expectChar '-' l
  let (d, l) ← readNDigits 2 l
  if mo < 1 ∨ 12 < mo ∨ d < 1 ∨ daysInMonth y mo < d then none
  else
    match l with
    | [] => some ⟨daysFromCivil y mo d * 86400000000, none⟩
    | sep :: rest =>
      if sep ≠ 'T' ∧ sep ≠ ' ' then none
      else do
        let (h, l) ← readNDigits 2 rest
        let l ← expectChar ':' l
        let (mi, l) ← readNDigits 2 l
        let (s, micro, l) ←
          match l with
          | ':' :: r => do
            let (s, l2) ← readNDigits 2 r
            let (micro, l3) ← readFraction l2
            some (s, micro, l3)
          | _ => some (0, 0, l)
        if 23 < h ∨ 59 < mi ∨ 59 < s then none
        else
          let naive : Int := daysFromCivil y mo d * 86400000000 +
            ((h * 3600 + mi * 60 + s : Nat) : Int) * 1000000 + (micro : Int)
          match l with
          | [] => some ⟨naive, none⟩
          | sign :: r =>
            if sign = '+' ∨ sign = '-' then do
              let (oh, l) ← readNDigits 2 r
              let l ← expectChar ':' l
              let (om, l) ← readNDigits 2 l
              if l ≠ [] ∨ 59 < om then none
              else
                let mins : Int := (oh * 60 + om : Nat)
                some ⟨naive, some (if sign = '+' then mins else -mins)⟩
            else none

/-- The six characters of the string `+00:00`. -/
def utcOffsetChars : List Char := ['+', '0', '0', ':', '0', '0']

/-- Model of `parse_iso_datetime` (AI_BotV2.py / agentic variant; the
canvas_messeger variant is identical with the target timezone fixed to
America/New_York).  A trailing `Z` is rewritten to `+00:00`, the string
is parsed, a missing offset is read as UTC, and the result is converted
to the target timezone.  The returned value is the instant denoted, in
microseconds since the epoch; conversion to the target timezone preserves
the instant, so it does not appear in the model. -/
def parse_iso_datetime (l : List Char) : Option Int :=
  if l = [] then none
  else
    let l2 := if l.getLast? = some 'Z' then l.dropLast ++ utcOffsetChars else l
    match fromisoformat l2 with
    | none => none
    | some dt => some (dt.naive - (dt.offsetMinutes.getD 0) * 60000000)

/-! ## Due-date window filter (Assignment Aggregator)

`fetch_upcoming_assignments` computes `now_local = datetime.now(target_tz)`
and `due_threshold_local = now_local + timedelta(days=days_ahead)`, then
keeps an assignment via
`if due_datetime_local and now_local <= due_datetime_local <= due_threshold_local`.
Instants are microseconds; `timedelta(days=1)` is 86400000000 µs. -/

/-- Microseconds in one day. -/
def microsecondsPerDay : Int := 86400000000

/-- The window upper bound `now + timedelta(days=days_ahead)`. -/
def dueThreshold (now : Int) (daysAhead : Nat) : Int :=
  now + (daysAhead : Int) * microsecondsPerDay

/-- The keep condition of the aggregator loop:
`due_datetime_local and now_local <= due_datetime_local <= due_threshold_local`
(a `None` due instant is falsy and the assignment is dropped). -/
def keepDue (now : Int) (daysAhead : Nat) (dueOpt : Option Int) : Bool :=
  match dueOpt with
  | none => false
  | some d => decide (now ≤ d) && decide (d ≤ dueThreshold now daysAhead)

/-! ## Per-session assignment index (SessionIndex)

`check_assignments_command` stores the freshly sorted list under indices
1..N in the per-user dictionary after clearing it:
```
context.user_data['last_assignments'].clear()
for i, assignment in enumerate(assignments, 1):
    context.user_data['last_assignments'][i] = assignment
```
The dictionary is modelled as an association list with Python dict
insertion semantics (replace the existing key in place, else append). -/

/-- Python `dict.clear()`. -/
def dictClear (_ : List (Nat × α)) : List (Nat × α) := []

/-- Python `d[k] = v`: replace in place when the key exists, else append. -/
def dictInsert (d : List (Nat × α)) (k : Nat) (v : α) : List (Nat × α) :=
  if d.any (fun p => p.1 == k) then
    d.map (fun p => if p.1 == k then (k, v) else p)
  else d ++ [(k, v)]

/-- The index update performed by the `/check` command. -/
def checkStoreIndex (old : List (Nat × α)) (assignments : List α) :
    List (Nat × α) :=
  (assignments.enumFrom 1).foldl (fun d p => dictInsert d p.1 p.2)
    (dictClear old)

/-! ## SMS chunker (canvas_messeger.send_sms_via_email)

The plain-text message is split on blank lines (`message_body.split("\n\n")`);
the first part is the header, the rest are assignment blocks.  Chunks are
built greedily: a block is appended to the current chunk unless that would
push the running length past 150, in which case the current chunk is
flushed and a new one starts with the block.  Chunks are rejoined
internally with blank lines, and when more than one chunk results each
sent message is prefixed with `(i/N)\n`. -/

/-- Helper for `splitNN`: prepend a character to the first part. -/
def consHead (c : Char) : List (List Char) → List (List Char)
  | [] => [[c]]
  | p :: ps => (c :: p) :: ps

/-- Python `s.split("\n\n")` (leftmost, non-overlapping occurrences). -/
def splitNN : List Char → List (List Char)
  | [] => [[]]
  | [c] => [[c]]
  | c :: d :: rest =>
    if c = '\n' ∧ d = '\n' then [] :: splitNN rest
    else consHead c (splitNN (d :: rest))

/-- Python `"\n\n".join(parts)`. -/
def joinNN : List (List Char) → List Char
  | [] => []
  | [p] => p
  | p :: q :: ps => p ++ '\n' :: '\n' :: joinNN (q :: ps)

/-- The chunk-building loop of `send_sms_via_email`: `current` is the
parts of the chunk being built (never empty: it starts as `[header]` and
restarts as `[assignment]`), `curLen` is `current_length`.  A block whose
addition would push the running length past 150 flushes the current
chunk. -/
def chunkLoop (current : List (List Char)) (curLen : Nat) :
    List (List Char) → List (List Char)
  | [] => [joinNN current]
  | a :: rest =>
    if 150 < curLen + (a.length + 2) then
      joinNN current :: chunkLoop [a] a.length rest
    else
      chunkLoop (current ++ [a]) (curLen + (a.length + 2)) rest

/-- The chunks built by `send_sms_via_email` before part markers are
added: split on blank lines, keep the header with the first blocks, then
run the greedy loop.  (`split` never returns an empty list, so the
`[]` case is unreachable.) -/
def smsChunks (message : List Char) : List (List Char) :=
  match splitNN message with
  | [] => []
  | header :: blocks => chunkLoop [header] header.length blocks

/-- Decimal digit characters of a natural number (enough fuel is supplied
by the wrapper; running out only stops prepending more digits). -/
def natCharsAux : Nat → Nat → List Char → List Char
  | 0, _, acc => acc
  | fuel + 1, n, acc =>
    if n < 10 then Nat.digitChar n :: acc
    else natCharsAux fuel (n / 10) (Nat.digitChar (n % 10) :: acc)

/-- Decimal representation of a natural number, as Python `f"{n}"`. -/
def natChars (n : Nat) : List Char := natCharsAux (n + 1) n []

/-- The marker `f"({i}/{total})\n"` prefixed to each sent message when
more than one chunk results. -/
def partMarker (i total : Nat) : List Char :=
  '(' :: (natChars i ++ '/' :: (natChars total ++ [')', '\n']))

/-- The messages actually handed to `sendmail`, with part markers added
when there is more than one chunk. -/
def smsSentMessages (message : List Char) : List (List Char) :=
  let chunks := smsChunks message
  if 1 < chunks.length then
    (chunks.enumFrom 1).map (fun p => partMarker p.1 chunks.length ++ p.2)
  else chunks

/-- Remove a part marker: drop everything up to and including the first
newline. -/
def dropMarkerLine (l : List Char) : List Char :=
  (l.dropWhile (fun c => c != '\n')).drop 1

/-- Reassembly of the original report from the sent messages: strip the
part markers (present only when more than one chunk was sent) and rejoin
the chunks with blank-line separators. -/
def recoverMessage (message : List Char) : List Char :=
  if 1 < (smsChunks message).length then
    joinNN ((smsSentMessages message).map dropMarkerLine)
  else joinNN (smsSentMessages message)

/-! ## Aggregated assignment records and the final sort

`fetch_upcoming_assignments` appends one dictionary per kept assignment
in course-enumeration order and finishes with
`upcoming_assignments.sort(key=lambda x: x['due_date_local'])` — Python
`list.sort` is an ascending stable sort, modelled by `List.mergeSort`. -/

structure AssignmentRecord where
  courseName : List Char
  assignmentName : List Char
  due : Int
  description : Option (List Char)
  htmlUrl : Option (List Char)
  estimatedHours : Option Nat
  deriving Repr, DecidableEq

/-- Comparison by the sort key `x['due_date_local']`. -/
def dueLe (a b : AssignmentRecord) : Bool := decide (a.due ≤ b.due)

/-- The final sort of the aggregator (stable, ascending by due instant). -/
def sortAssignments (l : List AssignmentRecord) : List AssignmentRecord :=
  l.mergeSort dueLe

/-! ## Text sanitizer (`clean_html`)

`clean_html` runs four regex stages and a strip:
1. `re.sub(r'<(script|style).*?>.*?</\1>', '', raw, IGNORECASE|DOTALL)` —
   remove script/style elements with their content;
2. `re.sub('<[^<]+?>', ' ', ...)` — replace each remaining tag with a space;
3. `html.unescape(...)` — decode character entities (modelled on a
   representative subset of the entity table, with terminating `;`);
4. `re.sub(r'\s+', ' ', ...).strip()` — collapse whitespace runs and trim.

Regex stages are modelled by recursive scanners with the exact
leftmost-match semantics of `re.sub`; `IGNORECASE` is `Char.toLower`
comparison (Python `str.lower` on ASCII). -/

def lowerStartsWith : List Char → List Char → Bool
  | [], _ => true
  | _ :: _, [] => false
  | p :: ps, c :: cs => (Char.toLower c == p) && lowerStartsWith ps cs

def scriptChars : List Char := ['s', 'c', 'r', 'i', 'p', 't']

def styleChars : List Char := ['s', 't', 'y', 'l', 'e']

/-- Lazy `.*?>` under DOTALL: everything up to and including the first `>`. -/
def findGt : List Char → Option (List Char)
  | [] => none
  | c :: rest => if c = '>' then some rest else findGt rest

/-- The closing pattern `</tag>` of the script/style regex (`</\1>`). -/
def closePattern (tag : List Char) : List Char := '<' :: '/' :: (tag ++ ['>'])

/-- Lazy `.*?</tag>` (case-insensitive): the suffix after the first
occurrence of the closing tag. -/
def findCloseTag (tag : List Char) : List Char → Option (List Char)
  | [] => none
  | c :: rest =>
    if lowerStartsWith (closePattern tag) (c :: rest) then
      some ((c :: rest).drop (closePattern tag).length)
    else findCloseTag tag rest

/-- Attempt of the script/style regex at the current position: it must
start with `<script` or `<style` (case-insensitive), reach a first `>`,
and find the matching close tag; returns the suffix after the match. -/
def matchScriptStyle : List Char → Option (List Char)
  | '<' :: rest =>
    if lowerStartsWith scriptChars rest then
      match findGt (rest.drop 6) with
      | some afterOpen => findCloseTag scriptChars afterOpen
      | none => none
    else if lowerStartsWith styleChars rest then
      match findGt (rest.drop 5) with
      | some afterOpen => findCloseTag styleChars afterOpen
      | none => none
    else none
  | _ => none

/-- Scanner of the first `re.sub`: at each position, if the script/style
regex matches, the match is deleted and scanning resumes after it;
otherwise the character is kept.  Fuel-based; the wrapper supplies the
length of the list, which always suffices. -/
def removeSSAux : Nat → List Char → List Char
  | 0, l => l
  | fuel + 1, [] => []
  | fuel + 1, c :: rest =>
    if c = '<' then
      match matchScriptStyle (c :: rest) with
      | some r => removeSSAux fuel r
      | none => c :: removeSSAux fuel rest
    else c :: removeSSAux fuel rest

/-- The first `re.sub`: remove script/style elements with their content. -/
def removeScriptStyle (l : List Char) : List Char := removeSSAux l.length l

/-- The tag pattern `<[^<]+?>` continuation after the `<`: at least one
character that is not `<`, then lazily up to the first `>`, failing on a
`<`.  Returns the suffix after the `>`. -/
def findTagEnd : List Char → Option (List Char)
  | [] => none
  | c :: rest => if c = '<' then none else findTagEndGt rest
where
  findTagEndGt : List Char → Option (List Char)
    | [] => none
    | c :: rest =>
      if c = '>' then some rest
      else if c = '<' then none
      else findTagEndGt rest

/-- Scanner of the second `re.sub`: each tag match `<[^<]+?>` is replaced
by one space. -/
def stripTagsAux : Nat → List Char → List Char
  | 0, l => l
  | _ + 1, [] => []
  | fuel + 1, c :: rest =>
    if c = '<' then
      match findTagEnd rest with
      | some r => ' ' :: stripTagsAux fuel r
      | none => c :: stripTagsAux fuel rest
    else c :: stripTagsAux fuel rest

/-- The second `re.sub`: replace each remaining tag with a space. -/
def stripTags (l : List Char) : List Char := stripTagsAux l.length l

/-- Representative subset of the `html.unescape` entity table (named
references with their terminating semicolon). -/
def entityTable : List (List Char × Char) :=
  [(['a', 'm', 'p'], '&'), (['l', 't'], '<'), (['g', 't'], '>'),
   (['q', 'u', 'o', 't'], '"'), (['a', 'p', 'o', 's'], '\''),
   (['n', 'b', 's', 'p'], '\xA0')]

/-- Consume an exact character sequence. -/
def dropExact : List Char → List Char → Option (List Char)
  | [], l => some l
  | _ :: _, [] => none
  | p :: ps, c :: cs => if c = p then dropExact ps cs else none

/-- Recognize one entity (the part after `&`): its name followed by `;`. -/
def matchEntity (l : List Char) : Option (Char × List Char) :=
  go entityTable l
where
  go : List (List Char × Char) → List Char → Option (Char × List Char)
    | [], _ => none
    | (name, ch) :: tbl, l =>
      match dropExact (name ++ [';']) l with
      | some r => some (ch, r)
      | none => go tbl l

/-- Scanner of `html.unescape`: at `&`, a recognized entity is replaced by
its character; anything else is copied. -/
def unescapeAux : Nat → List Char → List Char
  | 0, l => l
  | _ + 1, [] => []
  | fuel + 1, c :: rest =>
    if c = '&' then
      match matchEntity rest with
      | some (ch, r) => ch :: unescapeAux fuel r
      | none => c :: unescapeAux fuel rest
    else c :: unescapeAux fuel rest

/-- Model of `html.unescape` on the modelled entity subset. -/
def unescape (l : List Char) : List Char := unescapeAux l.length l

/-- The whitespace class of Python `re` `\s` and `str.strip` (modelled on
the characters that can occur here: ASCII whitespace, NEL and NBSP). -/
def isPyWs (c : Char) : Bool :=
  c = ' ' || c = '\t' || c = '\n' || c = '\r' || c = '\x0b' || c = '\x0c' ||
  c = '\x85' || c = '\xA0'

/-- `re.sub(r'\s+', ' ', text)`: collapse each maximal whitespace run to a
single space. -/
def collapseWs : List Char → List Char
  | [] => []
  | [c] => if isPyWs c then [' '] else [c]
  | c :: d :: rest =>
    if isPyWs c && isPyWs d then collapseWs (d :: rest)
    else (if isPyWs c then ' ' else c) :: collapseWs (d :: rest)

/-- Python `str.strip()`: remove leading and trailing whitespace. -/
def pyStrip (l : List Char) : List Char :=
  (((l.dropWhile isPyWs).reverse).dropWhile isPyWs).reverse

/-- Model of `clean_html`: the four stages and the final strip.  An empty
(falsy) input short-circuits to the empty string. -/
def clean_html (l : List Char) : List Char :=
  if l = [] then []
  else pyStrip (collapseWs (unescape (stripTags (removeScriptStyle l))))

/-! ## Sanitizer correctness on tag-and-whitespace inputs -/

/-- Strings consisting only of HTML tags (a `<`, a nonempty body free of
`<` and `>`, a `>`), whitespace characters, and the whitespace-decoding
entity `&nbsp;`. -/
inductive TagsWs : List Char → Prop where
  | nil : TagsWs []
  | ws (c : Char) (l : List Char) : isPyWs c = true → TagsWs l →
      TagsWs (c :: l)
  | nbsp (l : List Char) : TagsWs l →
      TagsWs ('&' :: 'n' :: 'b' :: 's' :: 'p' :: ';' :: l)
  | tag (body l : List Char) : body ≠ [] →
      (∀ c ∈ body, c ≠ '<' ∧ c ≠ '>') → TagsWs l →
      TagsWs ('<' :: body ++ '>' :: l)

/-- Strings consisting only of whitespace characters and `&nbsp;`
entities (the image of tag-and-whitespace strings under tag stripping). -/
inductive WsEnt : List Char → Prop where
  | nil : WsEnt []
  | ws (c : Char) (l : List Char) : isPyWs c = true → WsEnt l →
      WsEnt (c :: l)
  | nbsp (l : List Char) : WsEnt l →
      WsEnt ('&' :: 'n' :: 'b' :: 's' :: 'p' :: ';' :: l)

/-! ## AI estimation adapter

`estimate_time_via_ai` / `summarize_assignment_via_ai` (AI_BotV2.py) skip
when the description is falsy or when its sanitized, truncated form is
empty; otherwise they build a prompt and send it to `ollama.chat`.  The
canvas_messeger.py variant of `estimate_time_via_ai` checks only the raw
description and never sanitizes.  Each operation returns its result
together with the list of prompt contents it sent. -/

/-- Truncation `s[:maxLen] + "..."` applied when the length exceeds the
cap. -/
def truncateDesc (maxLen : Nat) (l : List Char) : List Char :=
  if maxLen < l.length then l.take maxLen ++ ['.', '.', '.'] else l

def estimatePromptIntro : List Char :=
  ("You are an AI assistant helping a college student estimate assignment "
    ++ "completion time.\n\nAssignment Details:\n- Course: ").data

/-- The prompt of `estimate_time_via_ai` (AI_BotV2.py). -/
def estimatePrompt (course title dueStr : List Char)
    (url : Option (List Char)) (desc : List Char) : List Char :=
  estimatePromptIntro ++ course ++ "\n- Title: ".data ++ title ++
  "\n- Due: ".data ++ dueStr ++ "\n".data ++
  (match url with
   | some u => "- URL: ".data ++ u ++ "\n".data
   | none => []) ++
  "\nDescription:\n".data ++ desc ++ "\n\n".data ++
  ("Estimate the hours needed to complete this assignment. Consider "
    ++ "typical college student workload. Respond ONLY with a single "
    ++ "number (e.g., '2', '3.5', '0.5').").data

def summarizePromptIntro : List Char :=
  ("You are an AI assistant helping a college student understand an "
    ++ "assignment.\n\nAssignment Details:\n- Course: ").data

/-- The prompt of `summarize_assignment_via_ai` (AI_BotV2.py). -/
def summarizePrompt (course title dueStr desc : List Char) : List Char :=
  summarizePromptIntro ++ course ++ "\n- Title: ".data ++ title ++
  "\n- Due: ".data ++ dueStr ++ "\n\nDescription:\n".data ++ desc ++
  ("\n\nProvide a 2-3 sentence summary of this assignment that "
    ++ "highlights:\n1. The main task/deliverable\n2. Key requirements "
    ++ "or focus areas\n3. Any important deadlines or submission "
    ++ "details\n\nBe concise and direct.").data

def estimatePromptSMSIntro : List Char :=
  ("You're an AI assistant helping a college student estimate how long "
    ++ "each assignment will take.\n\nHere is an assignment:\nCourse: ").data

/-- The prompt of `estimate_time_via_ai` (canvas_messeger.py). -/
def estimatePromptSMS (course title dueStr : List Char)
    (url : Option (List Char)) (desc : List Char) : List Char :=
  estimatePromptSMSIntro ++ course ++ "\nTitle: ".data ++ title ++
  "\nDue Date: ".data ++ dueStr ++ "\n".data ++
  (match url with
   | some u => "Assignment URL: ".data ++ u ++ "\n".data
   | none => []) ++
  "\nDescription:\n".data ++ desc ++ "\n\n".data ++
  ("Based on this, estimate how many hours the student will likely need "
    ++ "to complete it. Respond with only a single number like '2' or "
    ++ "'3.5'.").data

/-- Decimal value of a digit run. -/
def digitsVal (ds : List Char) : Nat :=
  ds.foldl (fun a c => a * 10 + digitVal c) 0

/-- The token matched by `re.search(r"(\d+(\.\d+)?)", text)` starting at
a digit: the maximal digit run, then optionally a dot and a nonempty
maximal digit run. -/
def numToken (l : List Char) : List Char :=
  let ds := l.takeWhile Char.isDigit
  match l.dropWhile Char.isDigit with
  | '.' :: r2 =>
    let fs := r2.takeWhile Char.isDigit
    if fs = [] then ds else ds ++ '.' :: fs
  | _ => ds

/-- Leftmost match of `(\d+(\.\d+)?)`: scan to the first digit and take
the token there; `none` when the text has no digit. -/
def extractNumber : List Char → Option (List Char)
  | [] => none
  | c :: rest =>
    if c.isDigit then some (numToken (c :: rest)) else extractNumber rest

/-- Rational value of a matched numeric token (`float(match.group(1))`,
with the binary representation error abstracted away). -/
def parseToken (tok : List Char) : Rat :=
  let ip := tok.takeWhile Char.isDigit
  match tok.dropWhile Char.isDigit with
  | '.' :: fs => (digitsVal ip : Rat) + (digitsVal fs : Rat) / (10 : Rat) ^ fs.length
  | _ => (digitsVal ip : Rat)

/-- Round half to even, the mode of Python `round`. -/
def roundHalfEven (q : Rat) : Int :=
  if q - q.floor < 1 / 2 then q.floor
  else if 1 / 2 < q - q.floor then q.floor + 1
  else if q.floor % 2 = 0 then q.floor else q.floor + 1

/-- Python `round(x, 1)` on the exact decimal value. -/
def pyRound1 (q : Rat) : Rat := (roundHalfEven (10 * q) : Rat) / 10

/-- Round `n / d` to the nearest integer, half to even (the integer
counterpart of `roundHalfEven`). -/
def roundHalfEvenFrac (n d : Nat) : Nat :=
  if 2 * (n % d) < d then n / d
  else if d < 2 * (n % d) then n / d + 1
  else if (n / d) % 2 = 0 then n / d else n / d + 1

/-- `round(float(tok), 1)` in tenths: the exact value of the rounded
estimate times ten. -/
def tokenTenths (tok : List Char) : Nat :=
  let ip := tok.takeWhile Char.isDigit
  match tok.dropWhile Char.isDigit with
  | '.' :: fs =>
    roundHalfEvenFrac (10 * (digitsVal ip * 10 ^ fs.length + digitsVal fs))
      (10 ^ fs.length)
  | _ => 10 * digitsVal ip

/-- Rendered form of a numeric token with integer part `ip` and optional
fractional part `fp`. -/
def renderTok (ip : List Char) (fp : Option (List Char)) : List Char :=
  match fp with
  | none => ip
  | some f => ip ++ '.' :: f

/-- Value denoted by a numeric token. -/
def tokVal (ip : List Char) (fp : Option (List Char)) : Rat :=
  match fp with
  | none => (digitsVal ip : Rat)
  | some f => (digitsVal ip : Rat) + (digitsVal f : Rat) / (10 : Rat) ^ f.length

/-- Reply handling of the hours estimator: strip the reply, search for
the first numeric token, round its value to one decimal (returned in
tenths); no token is a defined "no result". -/
def parseHoursReply (reply : List Char) : Option Nat :=
  match extractNumber (pyStrip reply) with
  | some tok => some (tokenTenths tok)
  | none => none

/-- `estimate_time_via_ai` of AI_BotV2.py.  Returns the estimate and the
list of prompt contents sent to the chat endpoint.  A `none` oracle reply
models a transport failure (caught, degraded to no estimate). -/
def estimate_time_via_ai (oracle : List Char → Option (List Char))
    (course title dueStr : List Char) (description : Option (List Char))
    (url : Option (List Char)) : Option Nat × List (List Char) :=
  match description with
  | none => (none, [])
  | some [] => (none, [])
  | some desc =>
    let cleanDesc := truncateDesc 1000 (clean_html desc)
    if cleanDesc = [] then (none, [])
    else
      let prompt := estimatePrompt course title dueStr url cleanDesc
      match oracle prompt with
      | none => (none, [prompt])
      | some reply => (parseHoursReply reply, [prompt])

/-- `summarize_assignment_via_ai` of AI_BotV2.py. -/
def summarize_assignment_via_ai (oracle : List Char → Option (List Char))
    (course title dueStr : List Char) (description : Option (List Char)) :
    Option (List Char) × List (List Char) :=
  match description with
  | none => (none, [])
  | some [] => (none, [])
  | some desc =>
    let cleanDesc := truncateDesc 1500 (clean_html desc)
    if cleanDesc = [] then (none, [])
    else
      let prompt := summarizePrompt course title dueStr cleanDesc
      match oracle prompt with
      | none => (none, [prompt])
      | some reply => (some (pyStrip reply), [prompt])

/-- `estimate_time_via_ai` of canvas_messeger.py: skips only when the raw
description is empty, and sends the raw (unsanitized) description. -/
def estimate_time_via_ai_sms (oracle : List Char → Option (List Char))
    (course title dueStr : List Char) (description : List Char)
    (url : Option (List Char)) : Option Nat × List (List Char) :=
  if description = [] then (none, [])
  else
    let prompt := estimatePromptSMS course title dueStr url description
    match oracle prompt with
    | none => (none, [prompt])
    | some reply => (parseHoursReply reply, [prompt])

/-! ## Per-assignment processing in the aggregator loop -/

/-- A Canvas assignment as seen through `getattr`: `none` models a
missing attribute. -/
structure CanvasAssignment where
  name : List Char
  dueAt : Option (List Char)
  description : Option (List Char)
  htmlUrl : Option (List Char)
  deriving Repr, DecidableEq

/-- `parse_iso_datetime(getattr(assignment, 'due_at', None), ...)`: a
missing attribute is falsy and parses to nothing. -/
def parse_iso_opt (s : Option (List Char)) : Option Int :=
  match s with
  | none => none
  | some l => parse_iso_datetime l

/-- Loop body of `fetch_upcoming_assignments` (AI_BotV2.py) for one
assignment: parse the due date, apply the window filter, and on success
assemble the record with the best-effort estimate.  `dueFormat` models
`strftime` on the localized due instant. -/
def processAssignmentV2 (oracle : List Char → Option (List Char))
    (dueFormat : Int → List Char) (now : Int) (daysAhead : Nat)
    (courseName : List Char) (a : CanvasAssignment) :
    Option AssignmentRecord :=
  match parse_iso_opt a.dueAt with
  | none => none
  | some d =>
    if keepDue now daysAhead (some d) then
      some { courseName := courseName, assignmentName := a.name, due := d,
             description := a.description, htmlUrl := a.htmlUrl,
             estimatedHours := (estimate_time_via_ai oracle courseName
               a.name (dueFormat d) a.description a.htmlUrl).1 }
    else none

/-- The record shape of canvas_messeger.py (description always present,
URL defaulted to `#`). -/
structure SMSAssignmentRecord where
  courseName : List Char
  assignmentName : List Char
  due : Int
  description : List Char
  htmlUrl : List Char
  estimatedHours : Option Nat
  deriving Repr, DecidableEq

/-- Loop body of `fetch_upcoming_assignments` (canvas_messeger.py):
`description = getattr(assignment, 'description', assignment.name)`
substitutes the assignment name when the attribute is missing, and the
estimator is invoked with that substituted description. -/
def processAssignmentSMS (oracle : List Char → Option (List Char))
    (dueFormat : Int → List Char) (now : Int) (daysAhead : Nat)
    (courseName : List Char) (a : CanvasAssignment) :
    Option SMSAssignmentRecord :=
  match parse_iso_opt a.dueAt with
  | none => none
  | some d =>
    if keepDue now daysAhead (some d) then
      let description := a.description.getD a.name
      some { courseName := courseName, assignmentName := a.name, due := d,
             description := description,
             htmlUrl := a.htmlUrl.getD ['#'],
             estimatedHours := (estimate_time_via_ai_sms oracle courseName
               a.name (dueFormat d) description a.htmlUrl).1 }
    else none

/-! ## MarkdownV2 escaper and the details-command error path -/

/-- The reserved characters of `escape_markdown_v2`:
`_*[]()~`>#+-=|{}.!`. -/
def escapeSet : List Char :=
  ['_', '*', '[', ']', '(', ')', '~', '`', '>', '#', '+', '-', '=', '|',
   '\x7b', '\x7d', '.', '!']

/-- `text.replace('\\', '\\\\')`. -/
def escapeBackslashes : List Char → List Char
  | [] => []
  | c :: rest =>
    if c = '\\' then '\\' :: '\\' :: escapeBackslashes rest
    else c :: escapeBackslashes rest

/-- `re.sub(r'([_*\[\]()~`>#+\-=|{}.!])', r'\\\1', text)`. -/
def escapeSpecials : List Char → List Char
  | [] => []
  | c :: rest =>
    if c ∈ escapeSet then '\\' :: c :: escapeSpecials rest
    else c :: escapeSpecials rest

/-- `escape_markdown_v2`: escape the backslash first, then the reserved
set. -/
def escape_markdown_v2 (l : List Char) : List Char :=
  escapeSpecials (escapeBackslashes l)

/-- Telegram MarkdownV2 display of a message: a backslash makes the next
character literal. -/
def mdRender : List Char → List Char
  | [] => []
  | '\\' :: c :: rest => c :: mdRender rest
  | c :: rest => c :: mdRender rest

def startsWithChars : List Char → List Char → Bool
  | [], _ => true
  | _ :: _, [] => false
  | p :: ps, c :: cs => (c == p) && startsWithChars ps cs

/-- Substring test. -/
def containsSub (needle : List Char) : List Char → Bool
  | [] => startsWithChars needle []
  | c :: rest => startsWithChars needle (c :: rest) || containsSub needle rest

/-- The keyword alternation of `(?:details|info|assignment)` under
`re.IGNORECASE`, anchored at the start by `re.match`. -/
def stripKeyword (l : List Char) : Option (List Char) :=
  if lowerStartsWith ['d', 'e', 't', 'a', 'i', 'l', 's'] l then some (l.drop 7)
  else if lowerStartsWith ['i', 'n', 'f', 'o'] l then some (l.drop 4)
  else if lowerStartsWith ['a', 's', 's', 'i', 'g', 'n', 'm', 'e', 'n', 't'] l
    then some (l.drop 10)
  else none

/-- `re.match(r'(?:details|info|assignment)\s+(\d+)', text, IGNORECASE)`
followed by `int(match.group(1))`. -/
def matchDetailsCommand (text : List Char) : Option Nat :=
  match stripKeyword text with
  | none => none
  | some rest =>
    match rest with
    | [] => none
    | c :: rest2 =>
      if isPyWs c then
        let rest3 := rest2.dropWhile isPyWs
        let ds := rest3.takeWhile Char.isDigit
        if ds = [] then none else some (digitsVal ds)
      else none

/-- Replies of the free-text handler relevant to the details flow. -/
inductive BotReply where
  | noMatchIgnored : BotReply
  | noListError : BotReply
  | outOfRange (message : List Char) : BotReply
  | details (index : Nat) : BotReply
  deriving Repr, DecidableEq

/-- The out-of-range error text of AI_BotV2.py `handle_text_message`:
a pre-escaped f-string passed through `escape_markdown_v2` again. -/
def errorTextV2 (idx count : Nat) : List Char :=
  escape_markdown_v2 (
    "Assignment ".data ++ natChars idx ++
    " not found in the last `/check` results\\. Available assignments are numbered 1\\-".data ++
    natChars count ++ "\\.".data)

/-- The out-of-range error text of agentic_bot_test_manus.py (plain text
passed through the escaper once). -/
def errorTextManus (idx count : Nat) : List Char :=
  escape_markdown_v2 (
    "Assignment ".data ++ natChars idx ++
    " not found. Please use /check to see available assignments (1-".data ++
    natChars count ++ ").".data)

/-- `handle_text_message` of AI_BotV2.py on the details flow: strip the
text, match the command regex, then resolve the index against the stored
session index. -/
def handle_text_message (text : List Char)
    (lastAssignments : List (Nat × AssignmentRecord)) : BotReply :=
  let message := pyStrip text
  match matchDetailsCommand message with
  | none => BotReply.noMatchIgnored
  | some idx =>
    if lastAssignments = [] then BotReply.noListError
    else if List.lookup idx lastAssignments = none then
      BotReply.outOfRange (errorTextV2 idx lastAssignments.length)
    else BotReply.details idx

/-- `handle_text_message` of agentic_bot_test_manus.py (same flow,
different error text). -/
def handle_text_message_manus (text : List Char)
    (lastAssignments : List (Nat × AssignmentRecord)) : BotReply :=
  let message := pyStrip text
  match matchDetailsCommand message with
  | none => BotReply.noMatchIgnored
  | some idx =>
    if lastAssignments = [] then BotReply.noListError
    else if List.lookup idx lastAssignments = none then
      BotReply.outOfRange (errorTextManus idx lastAssignments.length)
    else BotReply.details idx

/-- A concrete record used in closed evaluations. -/
def emptyRecord : AssignmentRecord :=
  { courseName := [], assignmentName := [], due := 0, description := none,
    htmlUrl := none, estimatedHours := none }

/-- C5 (part of the proof): appending `Z` takes the same path as appending
`+00:00`. -/
theorem parse_append_Z_eq (s : List Char) :
    parse_iso_datetime (s ++ ['Z']) = parse_iso_datetime (s ++ utcOffsetChars) := by
  unfold parse_iso_datetime
  have hz : (s ++ ['Z']).getLast? = some 'Z' := by
    simp [List.getLast?_concat]
  have hne : (s ++ ['Z']) ≠ [] := by simp
  have hne2 : (s ++ utcOffsetChars) ≠ [] := by simp [utcOffsetChars]
  have ho : (s ++ utcOffsetChars).getLast? = some '0' := by
    have h5 : s ++ utcOffsetChars = (s ++ ['+', '0', '0', ':', '0']) ++ ['0'] := by
      simp [utcOffsetChars]
    rw [h5, List.getLast?_concat]
  rw [if_neg hne, if_neg hne2, hz, ho]
  simp [List.dropLast_concat]

/-- C5: for every ISO-8601 timestamp string, the normalizer returns the
same instant for a trailing `Z` as for the equivalent `+00:00` suffix;
and when a string parses with no offset designator (hence does not end in
`Z`), the instant is interpreted as UTC — the returned instant is the
naive wall-clock reading — before conversion to the target timezone. -/
theorem c5_datetime_normalizer (s : List Char) :
    parse_iso_datetime (s ++ ['Z']) = parse_iso_datetime (s ++ utcOffsetChars) ∧
    (∀ dt, fromisoformat s = some dt → dt.offsetMinutes = none →
      s.getLast? ≠ some 'Z' → parse_iso_datetime s = some dt.naive) := by
  refine ⟨parse_append_Z_eq s, ?_⟩
  intro dt h hoff hz
  have hne : s ≠ [] := by
    intro he
    subst he
    have h0 : fromisoformat ([] : List Char) = none := rfl
    rw [h0] at h
    exact Option.noConfusion h
  unfold parse_iso_datetime
  rw [if_neg hne, if_neg hz]
  simp only [h, hoff]
  simp

/-- Witness for C5 at the concrete timestamp 2025-01-15T10:30:00. -/
theorem c5_datetime_normalizer_witness :
    parse_iso_datetime ("2025-01-15T10:30:00".data ++ ['Z']) =
      parse_iso_datetime ("2025-01-15T10:30:00".data ++ utcOffsetChars) ∧
    parse_iso_datetime "2025-01-15T10:30:00".data = some 1736937000000000 :=
  ⟨(c5_datetime_normalizer "2025-01-15T10:30:00".data).1,
   (c5_datetime_normalizer "2025-01-15T10:30:00".data).2
     ⟨1736937000000000, none⟩ (by decide) (by decide) (by decide)⟩

theorem foldl_dictInsert_fresh (as : List α) : ∀ (n : Nat) (d : List (Nat × α)),
    (∀ p ∈ d, p.1 < n) →
    (as.enumFrom n).foldl (fun d p => dictInsert d p.1 p.2) d = d ++ as.enumFrom n := by
  induction as with
  | nil => simp
  | cons a as ih =>
    intro n d h
    have hfresh : d.any (fun p => p.1 == n) = false := by
      simp only [List.any_eq_false]
      intro p hp
      have := h p hp
      simp
      omega
    have step : dictInsert d n a = d ++ [(n, a)] := by
      simp [dictInsert, hfresh]
    simp only [List.enumFrom, List.foldl_cons]
    rw [step, ih (n + 1) (d ++ [(n, a)])]
    · simp
    · intro p hp
      rcases List.mem_append.mp hp with h1 | h1
      · exact Nat.lt_succ_of_lt (h p h1)
      · simp at h1
        subst h1
        omega

theorem lookup_enumFrom (as : List α) : ∀ (n i : Nat),
    List.lookup (n + i) (as.enumFrom n) = as[i]? := by
  induction as with
  | nil => intro n i; simp
  | cons a as ih =>
    intro n i
    cases i with
    | zero => simp [List.enumFrom, List.lookup]
    | succ i =>
      have hne : (n + (i + 1) == n) = false := by simp
      simp only [List.enumFrom, List.lookup, hne]
      have heq : n + (i + 1) = (n + 1) + i := by omega
      rw [heq, ih (n + 1) i]
      simp

/-- C8: after a completed `/check`, the session index is exactly the
enumeration of the report records with contiguous keys 1..N in display
order; the previous contents are discarded wholesale (the result does not
depend on them), and index `i+1` resolves to record `i` of the sorted
list. -/
theorem c8_session_index (old : List (Nat × α)) (assignments : List α) :
    checkStoreIndex old assignments = assignments.enumFrom 1 ∧
    checkStoreIndex old assignments = checkStoreIndex [] assignments ∧
    (checkStoreIndex old assignments).map Prod.fst =
      List.range' 1 assignments.length ∧
    (∀ i : Nat, List.lookup (1 + i) (checkStoreIndex old assignments) =
      assignments[i]?) := by
  have key : checkStoreIndex old assignments = assignments.enumFrom 1 := by
    unfold checkStoreIndex dictClear
    rw [foldl_dictInsert_fresh assignments 1 [] (by simp)]
    simp
  refine ⟨key, ?_, ?_, ?_⟩
  · rw [key]
    unfold checkStoreIndex dictClear
    rw [foldl_dictInsert_fresh assignments 1 [] (by simp)]
    simp
  · rw [key, List.enumFrom_map_fst]
  · intro i
    rw [key, lookup_enumFrom]

theorem splitNN_cons2 (c d : Char) (rest : List Char) :
    splitNN (c :: d :: rest) =
      if c = '\n' ∧ d = '\n' then [] :: splitNN rest
      else consHead c (splitNN (d :: rest)) := rfl

theorem joinNN_cons_cons (p q : List Char) (ps : List (List Char)) :
    joinNN (p :: q :: ps) = p ++ '\n' :: '\n' :: joinNN (q :: ps) := rfl

theorem splitNN_ne_nil : ∀ (l : List Char), splitNN l ≠ []
  | [] => by simp [splitNN]
  | [c] => by simp [splitNN]
  | c :: d :: rest => by
    rw [splitNN_cons2]
    split
    · simp
    · cases he : splitNN (d :: rest) with
      | nil => exact absurd he (splitNN_ne_nil (d :: rest))
      | cons p ps => simp [consHead]

theorem joinNN_splitNN : ∀ (l : List Char), joinNN (splitNN l) = l
  | [] => rfl
  | [c] => rfl
  | c :: d :: rest => by
    rw [splitNN_cons2]
    split
    · rename_i hcd
      obtain ⟨hc, hd⟩ := hcd
      subst hc
      subst hd
      cases he : splitNN rest with
      | nil => exact absurd he (splitNN_ne_nil rest)
      | cons p ps =>
        have ih := joinNN_splitNN rest
        rw [he] at ih
        rw [joinNN_cons_cons]
        simpa using ih
    · have ih := joinNN_splitNN (d :: rest)
      cases he : splitNN (d :: rest) with
      | nil => exact absurd he (splitNN_ne_nil (d :: rest))
      | cons p ps =>
        rw [he] at ih
        cases ps with
        | nil =>
          simp only [consHead, joinNN] at ih ⊢
          rw [ih]
        | cons q ps2 =>
          simp only [consHead]
          rw [joinNN_cons_cons, List.cons_append]
          rw [joinNN_cons_cons] at ih
          rw [ih]

theorem joinNN_append : ∀ (g h : List (List Char)), g ≠ [] → h ≠ [] →
    joinNN (g ++ h) = joinNN g ++ '\n' :: '\n' :: joinNN h := by
  intro g
  induction g with
  | nil => intro h hg _; exact absurd rfl hg
  | cons x g ih =>
    intro h hg hh
    cases g with
    | nil =>
      cases h with
      | nil => exact absurd rfl hh
      | cons y hs =>
        show joinNN (x :: y :: hs) = joinNN [x] ++ '\n' :: '\n' :: joinNN (y :: hs)
        rw [joinNN_cons_cons]
        rfl
    | cons z g2 =>
      have ihz := ih h (by simp) hh
      have e1 : (x :: z :: g2) ++ h = x :: ((z :: g2) ++ h) := by simp
      rw [e1]
      have e2 : joinNN (x :: ((z :: g2) ++ h)) =
          x ++ '\n' :: '\n' :: joinNN ((z :: g2) ++ h) := by
        have e3 : (z :: g2) ++ h = z :: (g2 ++ h) := by simp
        rw [e3]
        rfl
      rw [e2, ihz, joinNN_cons_cons]
      simp

theorem flatten_ne_nil (gs : List (List (List Char))) (hne : gs ≠ [])
    (h : ∀ g ∈ gs, g ≠ []) : gs.flatten ≠ [] := by
  cases gs with
  | nil => exact absurd rfl hne
  | cons g gs =>
    have hg : g ≠ [] := h g (by simp)
    cases g with
    | nil => exact absurd rfl hg
    | cons x g2 => simp

theorem joinNN_map_joinNN (gs : List (List (List Char)))
    (h : ∀ g ∈ gs, g ≠ []) : joinNN (gs.map joinNN) = joinNN gs.flatten := by
  induction gs with
  | nil => rfl
  | cons g gs ih =>
    cases gs with
    | nil => simp [joinNN]
    | cons g2 gs2 =>
      have hg : g ≠ [] := h g (by simp)
      have hrest : ∀ x ∈ g2 :: gs2, x ≠ [] := by
        intro x hx
        exact h x (List.mem_cons_of_mem g hx)
      have hflat : (g2 :: gs2).flatten ≠ [] :=
        flatten_ne_nil (g2 :: gs2) (by simp) hrest
      simp only [List.map_cons] at ih ⊢
      rw [joinNN_cons_cons, ih hrest]
      have e1 : (g :: g2 :: gs2).flatten = g ++ (g2 :: gs2).flatten := by simp
      rw [e1, joinNN_append g ((g2 :: gs2).flatten) hg hflat]

theorem digitChar_ne_newline (k : Nat) : Nat.digitChar k ≠ '\n' := by
  match k with
  | 0 | 1 | 2 | 3 | 4 | 5 | 6 | 7 | 8 | 9 | 10 | 11 | 12 | 13 | 14 | 15 => decide
  | n + 16 =>
    unfold Nat.digitChar
    repeat rw [if_neg (by omega)]
    decide

theorem natCharsAux_mem : ∀ (fuel n : Nat) (acc : List Char) (c : Char),
    c ∈ natCharsAux fuel n acc → c ∈ acc ∨ ∃ k, c = Nat.digitChar k := by
  intro fuel
  induction fuel with
  | zero => intro n acc c hc; exact Or.inl hc
  | succ fuel ih =>
    intro n acc c hc
    unfold natCharsAux at hc
    split at hc
    · rcases List.mem_cons.mp hc with h1 | h1
      · exact Or.inr ⟨n, h1⟩
      · exact Or.inl h1
    · rcases ih (n / 10) (Nat.digitChar (n % 10) :: acc) c hc with h1 | h1
      · rcases List.mem_cons.mp h1 with h2 | h2
        · exact Or.inr ⟨n % 10, h2⟩
        · exact Or.inl h2
      · exact Or.inr h1

theorem natChars_ne_newline (n : Nat) (c : Char) (hc : c ∈ natChars n) :
    c ≠ '\n' := by
  rcases natCharsAux_mem (n + 1) n [] c hc with h1 | h1
  · simp at h1
  · obtain ⟨k, hk⟩ := h1
    rw [hk]
    exact digitChar_ne_newline k

theorem dropWhile_append_newline (m rest : List Char)
    (h : ∀ c ∈ m, c ≠ '\n') :
    List.dropWhile (fun c => c != '\n') (m ++ '\n' :: rest) = '\n' :: rest := by
  induction m with
  | nil => simp [List.dropWhile]
  | cons x m ih =>
    have hx : x ≠ '\n' := h x (by simp)
    have hx2 : (x != '\n') = true := by simpa using hx
    simp only [List.cons_append, List.dropWhile, hx2]
    exact ih (fun c hc => h c (by simp [hc]))

theorem dropMarkerLine_partMarker (i total : Nat) (chunk : List Char) :
    dropMarkerLine (partMarker i total ++ chunk) = chunk := by
  unfold dropMarkerLine partMarker
  have e1 : ('(' :: (natChars i ++ '/' :: (natChars total ++ [')', '\n']))) ++ chunk =
      ('(' :: (natChars i ++ '/' :: (natChars total ++ [')']))) ++ '\n' :: chunk := by
    simp
  rw [e1, dropWhile_append_newline]
  · simp
  · intro c hc
    simp at hc
    rcases hc with h1 | h1 | h1 | h1 | h1
    · rw [h1]; decide
    · exact natChars_ne_newline i c h1
    · rw [h1]; decide
    · exact natChars_ne_newline total c h1
    · rw [h1]; decide

theorem chunkLoop_spec : ∀ (rest : List (List Char)) (cur : List (List Char))
    (n : Nat), cur ≠ [] →
    ∃ groups : List (List (List Char)),
      chunkLoop cur n rest = groups.map joinNN ∧
      groups.flatten = cur ++ rest ∧ ∀ g ∈ groups, g ≠ [] := by
  intro rest
  induction rest with
  | nil =>
    intro cur n hc
    exact ⟨[cur], by simp [chunkLoop], by simp, by simpa⟩
  | cons a rest ih =>
    intro cur n hc
    by_cases h150 : 150 < n + (a.length + 2)
    · obtain ⟨gs, h1, h2, h3⟩ := ih [a] a.length (by simp)
      refine ⟨cur :: gs, ?_, ?_, ?_⟩
      · simp [chunkLoop, h150, h1]
      · simp [h2]
      · intro g hg
        rcases List.mem_cons.mp hg with h4 | h4
        · rw [h4]; exact hc
        · exact h3 g h4
    · obtain ⟨gs, h1, h2, h3⟩ := ih (cur ++ [a]) (n + (a.length + 2)) (by simp)
      refine ⟨gs, ?_, ?_, h3⟩
      · simp [chunkLoop, h150, h1]
      · rw [h2]
        simp

/-- C7: for every report message, stripping the part markers from the
sent SMS messages and rejoining the chunks with blank-line separators
reproduces the original message exactly; moreover the chunks partition
the blank-line-separated blocks into consecutive groups, so no assignment
block is ever split across two chunks. -/
theorem c7_sms_chunking (m : List Char) :
    recoverMessage m = m ∧
    ∃ groups : List (List (List Char)),
      groups.flatten = splitNN m ∧ (∀ g ∈ groups, g ≠ []) ∧
      smsChunks m = groups.map joinNN := by
  have hsplit := splitNN_ne_nil m
  obtain ⟨header, blocks, hhb⟩ : ∃ h b, splitNN m = h :: b := by
    cases he : splitNN m with
    | nil => exact absurd he hsplit
    | cons h b => exact ⟨h, b, rfl⟩
  obtain ⟨gs, h1, h2, h3⟩ := chunkLoop_spec blocks [header] header.length (by simp)
  have hchunks : smsChunks m = gs.map joinNN := by
    unfold smsChunks
    rw [hhb]
    exact h1
  have hflat : gs.flatten = splitNN m := by
    rw [h2, hhb]
    simp
  have hjoin : joinNN (smsChunks m) = m := by
    rw [hchunks, joinNN_map_joinNN gs h3, hflat, joinNN_splitNN]
  refine ⟨?_, gs, hflat, h3, hchunks⟩
  unfold recoverMessage
  by_cases hlen : 1 < (smsChunks m).length
  · rw [if_pos hlen]
    have hsent : smsSentMessages m =
        ((smsChunks m).enumFrom 1).map
          (fun p => partMarker p.1 (smsChunks m).length ++ p.2) := by
      unfold smsSentMessages
      rw [if_pos hlen]
    rw [hsent, List.map_map]
    have hmaps : (((smsChunks m).enumFrom 1).map
        (dropMarkerLine ∘ fun p => partMarker p.1 (smsChunks m).length ++ p.2)) =
        ((smsChunks m).enumFrom 1).map Prod.snd := by
      apply List.map_congr_left
      intro p _
      simp only [Function.comp]
      rw [dropMarkerLine_partMarker]
    rw [hmaps, List.enumFrom_map_snd]
    exact hjoin
  · rw [if_neg hlen]
    unfold smsSentMessages
    rw [if_neg hlen]
    exact hjoin

theorem dueLe_trans : ∀ (a b c : AssignmentRecord),
    dueLe a b → dueLe b c → dueLe a c := by
  intro a b c hab hbc
  simp [dueLe] at *
  omega

theorem dueLe_total : ∀ (a b : AssignmentRecord), dueLe a b || dueLe b a := by
  intro a b
  simp [dueLe]
  omega

/-- C2: the output of the aggregator sort has non-decreasing due instants,
is a permutation of the input records, and the sort is stable: for every
due instant, the records carrying it appear in the output in exactly
their input (course-enumeration) order. -/
theorem c2_sort_sorted_stable (l : List AssignmentRecord) :
    (sortAssignments l).Pairwise (fun a b => a.due ≤ b.due) ∧
    (sortAssignments l).Perm l ∧
    (∀ d : Int, (sortAssignments l).filter (fun r => r.due == d) =
      l.filter (fun r => r.due == d)) := by
  refine ⟨?_, List.mergeSort_perm l dueLe, ?_⟩
  · have h := List.sorted_mergeSort dueLe_trans dueLe_total l
    exact h.imp (by intro a b hab; simpa [dueLe] using hab)
  · intro d
    set p : AssignmentRecord → Bool := fun r => r.due == d with hp
    have hsub : List.Sublist (l.filter p) l := List.filter_sublist l
    have hpair : (l.filter p).Pairwise (fun a b => dueLe a b = true) := by
      apply List.pairwise_of_forall_mem_list
      intro a ha b hb
      have ha2 := (List.mem_filter.mp ha).2
      have hb2 := (List.mem_filter.mp hb).2
      simp only [hp, beq_iff_eq] at ha2 hb2
      simp [dueLe, ha2, hb2]
    have h2 : List.Sublist (l.filter p) (List.mergeSort l dueLe) :=
      List.sublist_mergeSort dueLe_trans dueLe_total hpair hsub
    have h3 : List.Sublist ((l.filter p).filter p) ((List.mergeSort l dueLe).filter p) :=
      h2.filter p
    have h4 : (l.filter p).filter p = l.filter p :=
      List.filter_eq_self.mpr (fun a ha => (List.mem_filter.mp ha).2)
    rw [h4] at h3
    have hperm : List.Perm ((List.mergeSort l dueLe).filter p) (l.filter p) :=
      (List.mergeSort_perm l dueLe).filter p
    exact (h3.eq_of_length hperm.length_eq.symm).symm

theorem findGt_length : ∀ (l r : List Char), findGt l = some r →
    r.length < l.length := by
  intro l
  induction l with
  | nil => intro r h; exact absurd h (by simp [findGt])
  | cons c rest ih =>
    intro r h
    unfold findGt at h
    split at h
    · cases h
      simp
    · have := ih r h
      simp
      omega

theorem findCloseTag_length : ∀ (tag l r : List Char),
    findCloseTag tag l = some r → r.length < l.length := by
  intro tag l
  induction l with
  | nil => intro r h; exact absurd h (by simp [findCloseTag])
  | cons c rest ih =>
    intro r h
    unfold findCloseTag at h
    split at h
    · cases h
      rw [List.length_drop]
      simp [closePattern]
      omega
    · have := ih r h
      simp
      omega

theorem matchScriptStyle_length (l r : List Char)
    (h : matchScriptStyle l = some r) : r.length < l.length := by
  unfold matchScriptStyle at h
  split at h
  · rename_i rest
    split at h
    · split at h
      · rename_i afterOpen hgt
        have h1 := findGt_length _ _ hgt
        have h2 := findCloseTag_length _ _ _ h
        have h3 : (rest.drop 6).length ≤ rest.length := by
          rw [List.length_drop]; omega
        simp
        omega
      · exact absurd h (by simp)
    · split at h
      · split at h
        · rename_i afterOpen hgt
          have h1 := findGt_length _ _ hgt
          have h2 := findCloseTag_length _ _ _ h
          have h3 : (rest.drop 5).length ≤ rest.length := by
            rw [List.length_drop]; omega
          simp
          omega
        · exact absurd h (by simp)
      · exact absurd h (by simp)
  · exact absurd h (by simp)

theorem removeSSAux_nil (fuel : Nat) : removeSSAux fuel [] = [] := by
  cases fuel <;> rfl

theorem removeSSAux_irrel : ∀ (n : Nat) (l : List Char), l.length ≤ n →
    ∀ f1 f2, l.length ≤ f1 → l.length ≤ f2 →
    removeSSAux f1 l = removeSSAux f2 l := by
  intro n
  induction n with
  | zero =>
    intro l hl f1 f2 _ _
    have : l = [] := by
      cases l with
      | nil => rfl
      | cons c r => simp at hl
    rw [this, removeSSAux_nil, removeSSAux_nil]
  | succ n ih =>
    intro l hl f1 f2 h1 h2
    cases l with
    | nil => rw [removeSSAux_nil, removeSSAux_nil]
    | cons c rest =>
      cases f1 with
      | zero => simp at h1
      | succ f1 =>
        cases f2 with
        | zero => simp at h2
        | succ f2 =>
          simp only [List.length_cons] at hl h1 h2
          unfold removeSSAux
          by_cases hc : c = '<'
          · rw [if_pos hc, if_pos hc]
            cases hm : matchScriptStyle (c :: rest) with
            | none =>
              show c :: removeSSAux f1 rest = c :: removeSSAux f2 rest
              rw [ih rest (by omega) f1 f2 (by omega) (by omega)]
            | some r =>
              have hr : r.length < rest.length + 1 :=
                by simpa using matchScriptStyle_length _ _ hm
              show removeSSAux f1 r = removeSSAux f2 r
              exact ih r (by omega) f1 f2 (by omega) (by omega)
          · rw [if_neg hc, if_neg hc]
            rw [ih rest (by omega) f1 f2 (by omega) (by omega)]

theorem removeScriptStyle_nil : removeScriptStyle [] = [] := rfl

theorem removeSSAux_cons (fuel : Nat) (c : Char) (rest : List Char) :
    removeSSAux (fuel + 1) (c :: rest) =
      if c = '<' then
        (match matchScriptStyle (c :: rest) with
         | some r => removeSSAux fuel r
         | none => c :: removeSSAux fuel rest)
      else c :: removeSSAux fuel rest := rfl

theorem removeScriptStyle_cons_ne (c : Char) (rest : List Char)
    (hc : c ≠ '<') :
    removeScriptStyle (c :: rest) = c :: removeScriptStyle rest := by
  show removeSSAux (rest.length + 1) (c :: rest) = c :: removeSSAux rest.length rest
  rw [removeSSAux_cons, if_neg hc]

theorem removeScriptStyle_match (rest r : List Char)
    (hm : matchScriptStyle ('<' :: rest) = some r) :
    removeScriptStyle ('<' :: rest) = removeScriptStyle r := by
  show removeSSAux (rest.length + 1) ('<' :: rest) = removeSSAux r.length r
  rw [removeSSAux_cons, if_pos rfl, hm]
  have hr : r.length < rest.length + 1 :=
    by simpa using matchScriptStyle_length _ _ hm
  show removeSSAux rest.length r = removeSSAux r.length r
  exact removeSSAux_irrel rest.length r (by omega) rest.length r.length
    (by omega) (by omega)

theorem removeScriptStyle_nomatch (rest : List Char)
    (hm : matchScriptStyle ('<' :: rest) = none) :
    removeScriptStyle ('<' :: rest) = '<' :: removeScriptStyle rest := by
  show removeSSAux (rest.length + 1) ('<' :: rest) = '<' :: removeSSAux rest.length rest
  rw [removeSSAux_cons, if_pos rfl, hm]

/-- Characters other than `<` are copied unchanged by the first stage. -/
theorem removeScriptStyle_append (m l : List Char)
    (h : ∀ c ∈ m, c ≠ '<') :
    removeScriptStyle (m ++ l) = m ++ removeScriptStyle l := by
  induction m with
  | nil => simp
  | cons x m ih =>
    have hx : x ≠ '<' := h x (by simp)
    rw [List.cons_append, removeScriptStyle_cons_ne x (m ++ l) hx,
      ih (fun c hc => h c (by simp [hc]))]
    rfl

theorem findTagEndGt_length : ∀ (l r : List Char),
    findTagEnd.findTagEndGt l = some r → r.length < l.length := by
  intro l
  induction l with
  | nil => intro r h; exact absurd h (by simp [findTagEnd.findTagEndGt])
  | cons c rest ih =>
    intro r h
    unfold findTagEnd.findTagEndGt at h
    split at h
    · cases h
      simp
    · split at h
      · exact absurd h (by simp)
      · have := ih r h
        simp
        omega

theorem findTagEnd_cons (c : Char) (rest : List Char) :
    findTagEnd (c :: rest) =
      if c = '<' then none else findTagEnd.findTagEndGt rest := rfl

theorem findTagEnd_length (l r : List Char) (h : findTagEnd l = some r) :
    r.length < l.length := by
  cases l with
  | nil => exact absurd h (by simp [findTagEnd])
  | cons c rest =>
    rw [findTagEnd_cons] at h
    split at h
    · exact absurd h (by simp)
    · have := findTagEndGt_length rest r h
      simp
      omega

theorem stripTagsAux_nil (fuel : Nat) : stripTagsAux fuel [] = [] := by
  cases fuel <;> rfl

theorem stripTagsAux_cons (fuel : Nat) (c : Char) (rest : List Char) :
    stripTagsAux (fuel + 1) (c :: rest) =
      if c = '<' then
        (match findTagEnd rest with
         | some r => ' ' :: stripTagsAux fuel r
         | none => c :: stripTagsAux fuel rest)
      else c :: stripTagsAux fuel rest := rfl

theorem stripTagsAux_irrel : ∀ (n : Nat) (l : List Char), l.length ≤ n →
    ∀ f1 f2, l.length ≤ f1 → l.length ≤ f2 →
    stripTagsAux f1 l = stripTagsAux f2 l := by
  intro n
  induction n with
  | zero =>
    intro l hl f1 f2 _ _
    have : l = [] := by
      cases l with
      | nil => rfl
      | cons c r => simp at hl
    rw [this, stripTagsAux_nil, stripTagsAux_nil]
  | succ n ih =>
    intro l hl f1 f2 h1 h2
    cases l with
    | nil => rw [stripTagsAux_nil, stripTagsAux_nil]
    | cons c rest =>
      cases f1 with
      | zero => simp at h1
      | succ f1 =>
        cases f2 with
        | zero => simp at h2
        | succ f2 =>
          simp only [List.length_cons] at hl h1 h2
          rw [stripTagsAux_cons, stripTagsAux_cons]
          by_cases hc : c = '<'
          · rw [if_pos hc, if_pos hc]
            cases hm : findTagEnd rest with
            | none =>
              show c :: stripTagsAux f1 rest = c :: stripTagsAux f2 rest
              rw [ih rest (by omega) f1 f2 (by omega) (by omega)]
            | some r =>
              have hr : r.length < rest.length := findTagEnd_length _ _ hm
              show ' ' :: stripTagsAux f1 r = ' ' :: stripTagsAux f2 r
              rw [ih r (by omega) f1 f2 (by omega) (by omega)]
          · rw [if_neg hc, if_neg hc]
            rw [ih rest (by omega) f1 f2 (by omega) (by omega)]

theorem stripTags_nil : stripTags [] = [] := rfl

theorem stripTags_cons_ne (c : Char) (rest : List Char) (hc : c ≠ '<') :
    stripTags (c :: rest) = c :: stripTags rest := by
  show stripTagsAux (rest.length + 1) (c :: rest) = c :: stripTagsAux rest.length rest
  rw [stripTagsAux_cons, if_neg hc]

theorem stripTags_match (rest r : List Char) (hm : findTagEnd rest = some r) :
    stripTags ('<' :: rest) = ' ' :: stripTags r := by
  show stripTagsAux (rest.length + 1) ('<' :: rest) = ' ' :: stripTagsAux r.length r
  rw [stripTagsAux_cons, if_pos rfl, hm]
  have hr : r.length < rest.length := findTagEnd_length _ _ hm
  show ' ' :: stripTagsAux rest.length r = ' ' :: stripTagsAux r.length r
  rw [stripTagsAux_irrel rest.length r (by omega) rest.length r.length
    (by omega) (by omega)]

theorem stripTags_nomatch (rest : List Char) (hm : findTagEnd rest = none) :
    stripTags ('<' :: rest) = '<' :: stripTags rest := by
  show stripTagsAux (rest.length + 1) ('<' :: rest) = '<' :: stripTagsAux rest.length rest
  rw [stripTagsAux_cons, if_pos rfl, hm]

theorem stripTags_append (m l : List Char) (h : ∀ c ∈ m, c ≠ '<') :
    stripTags (m ++ l) = m ++ stripTags l := by
  induction m with
  | nil => simp
  | cons x m ih =>
    have hx : x ≠ '<' := h x (by simp)
    rw [List.cons_append, stripTags_cons_ne x (m ++ l) hx,
      ih (fun c hc => h c (by simp [hc]))]
    rfl

theorem dropExact_length : ∀ (p l r : List Char), dropExact p l = some r →
    r.length + p.length = l.length := by
  intro p
  induction p with
  | nil =>
    intro l r h
    cases h
    simp
  | cons x ps ih =>
    intro l r h
    cases l with
    | nil => exact absurd h (by simp [dropExact])
    | cons c cs =>
      unfold dropExact at h
      split at h
      · have := ih cs r h
        simp
        omega
      · exact absurd h (by simp)

theorem matchEntity_go_length : ∀ (tbl : List (List Char × Char))
    (l : List Char) (ch : Char) (r : List Char),
    matchEntity.go tbl l = some (ch, r) →
    (∃ name, (name, ch) ∈ tbl ∧ dropExact (name ++ [';']) l = some r) := by
  intro tbl
  induction tbl with
  | nil => intro l ch r h; exact absurd h (by simp [matchEntity.go])
  | cons e tbl ih =>
    intro l ch r h
    unfold matchEntity.go at h
    split at h
    · rename_i ch2 heq
      cases h
      exact ⟨e.1, by simp, heq⟩
    · obtain ⟨nm, hmem, hdrop⟩ := ih l ch r h
      exact ⟨nm, by simp [hmem], hdrop⟩

theorem matchEntity_length (l : List Char) (ch : Char) (r : List Char)
    (h : matchEntity l = some (ch, r)) : r.length < l.length := by
  obtain ⟨name, _, hdrop⟩ := matchEntity_go_length entityTable l ch r h
  have := dropExact_length (name ++ [';']) l r hdrop
  simp at this
  omega

theorem unescapeAux_nil (fuel : Nat) : unescapeAux fuel [] = [] := by
  cases fuel <;> rfl

theorem unescapeAux_cons (fuel : Nat) (c : Char) (rest : List Char) :
    unescapeAux (fuel + 1) (c :: rest) =
      if c = '&' then
        (match matchEntity rest with
         | some (ch, r) => ch :: unescapeAux fuel r
         | none => c :: unescapeAux fuel rest)
      else c :: unescapeAux fuel rest := rfl

theorem unescapeAux_irrel : ∀ (n : Nat) (l : List Char), l.length ≤ n →
    ∀ f1 f2, l.length ≤ f1 → l.length ≤ f2 →
    unescapeAux f1 l = unescapeAux f2 l := by
  intro n
  induction n with
  | zero =>
    intro l hl f1 f2 _ _
    have : l = [] := by
      cases l with
      | nil => rfl
      | cons c r => simp at hl
    rw [this, unescapeAux_nil, unescapeAux_nil]
  | succ n ih =>
    intro l hl f1 f2 h1 h2
    cases l with
    | nil => rw [unescapeAux_nil, unescapeAux_nil]
    | cons c rest =>
      cases f1 with
      | zero => simp at h1
      | succ f1 =>
        cases f2 with
        | zero => simp at h2
        | succ f2 =>
          simp only [List.length_cons] at hl h1 h2
          rw [unescapeAux_cons, unescapeAux_cons]
          by_cases hc : c = '&'
          · rw [if_pos hc, if_pos hc]
            cases hm : matchEntity rest with
            | none =>
              show c :: unescapeAux f1 rest = c :: unescapeAux f2 rest
              rw [ih rest (by omega) f1 f2 (by omega) (by omega)]
            | some p =>
              obtain ⟨ch, r⟩ := p
              have hr : r.length < rest.length := matchEntity_length _ _ _ hm
              show ch :: unescapeAux f1 r = ch :: unescapeAux f2 r
              rw [ih r (by omega) f1 f2 (by omega) (by omega)]
          · rw [if_neg hc, if_neg hc]
            rw [ih rest (by omega) f1 f2 (by omega) (by omega)]

theorem unescape_nil : unescape [] = [] := rfl

theorem unescape_cons_ne (c : Char) (rest : List Char) (hc : c ≠ '&') :
    unescape (c :: rest) = c :: unescape rest := by
  show unescapeAux (rest.length + 1) (c :: rest) = c :: unescapeAux rest.length rest
  rw [unescapeAux_cons, if_neg hc]

theorem unescape_match (rest : List Char) (ch : Char) (r : List Char)
    (hm : matchEntity rest = some (ch, r)) :
    unescape ('&' :: rest) = ch :: unescape r := by
  show unescapeAux (rest.length + 1) ('&' :: rest) = ch :: unescapeAux r.length r
  rw [unescapeAux_cons, if_pos rfl, hm]
  have hr : r.length < rest.length := matchEntity_length _ _ _ hm
  show ch :: unescapeAux rest.length r = ch :: unescapeAux r.length r
  rw [unescapeAux_irrel rest.length r (by omega) rest.length r.length
    (by omega) (by omega)]

theorem unescape_nomatch (rest : List Char) (hm : matchEntity rest = none) :
    unescape ('&' :: rest) = '&' :: unescape rest := by
  show unescapeAux (rest.length + 1) ('&' :: rest) = '&' :: unescapeAux rest.length rest
  rw [unescapeAux_cons, if_pos rfl, hm]

theorem toNat_ofNat_valid (n : Nat) (h : n.isValidChar) :
    (Char.ofNat n).toNat = n := by
  unfold Char.ofNat
  rw [dif_pos h]
  rfl

theorem toLower_eq_of_lt97 (c t : Char) (ht : t.toNat < 97)
    (h : Char.toLower c = t) : c = t := by
  have hd : Char.toLower c =
      if c.toNat ≥ 65 ∧ c.toNat ≤ 90 then Char.ofNat (c.toNat + 32) else c := rfl
  rw [hd] at h
  split at h
  · rename_i hr
    exfalso
    have hv : (c.toNat + 32).isValidChar := Or.inl (by omega)
    have h2 := congrArg Char.toNat h
    rw [toNat_ofNat_valid _ hv] at h2
    omega
  · exact h

theorem isPyWs_ne_special (c : Char) (h : isPyWs c = true) :
    c ≠ '<' ∧ c ≠ '>' ∧ c ≠ '&' := by
  unfold isPyWs at h
  simp only [Bool.or_eq_true, decide_eq_true_eq] at h
  rcases h with (((((((h | h) | h) | h) | h) | h) | h) | h) <;> subst h <;> decide

theorem toLower_ne_lt_of_ne (c : Char) (h : c ≠ '<') :
    Char.toLower c ≠ '<' := by
  intro h2
  exact h (toLower_eq_of_lt97 c '<' (by decide) h2)

theorem lsw_nil_pat (l : List Char) : lowerStartsWith [] l = true := rfl

theorem lsw_cons_cons (p : Char) (ps : List Char) (c : Char) (cs : List Char) :
    lowerStartsWith (p :: ps) (c :: cs) =
      ((Char.toLower c == p) && lowerStartsWith ps cs) := rfl

/-- A pattern ending in `>` whose stem has no `>` matches across a
`>`-free block exactly up to the first `>`. -/
theorem lsw_gt_length : ∀ (q m l : List Char), (∀ x ∈ q, x ≠ '>') →
    (∀ c ∈ m, c ≠ '>') →
    lowerStartsWith (q ++ ['>']) (m ++ '>' :: l) = true →
    m.length = q.length := by
  intro q
  induction q with
  | nil =>
    intro m l _ hm h
    cases m with
    | nil => rfl
    | cons c m2 =>
      exfalso
      rw [List.nil_append, List.cons_append, lsw_cons_cons] at h
      have h2 : Char.toLower c = '>' := by
        have := (Bool.and_eq_true _ _).mp h
        simpa using this.1
      exact hm c (by simp) (toLower_eq_of_lt97 c '>' (by decide) h2)
  | cons x q2 ih =>
    intro m l hq hm h
    cases m with
    | nil =>
      exfalso
      rw [List.cons_append, List.nil_append, lsw_cons_cons] at h
      have h2 : Char.toLower '>' = x := by
        have := (Bool.and_eq_true _ _).mp h
        simpa using this.1
      have h3 : Char.toLower '>' = '>' := by decide
      exact hq x (by simp) (by rw [← h2, h3])
    | cons c m2 =>
      rw [List.cons_append, List.cons_append, lsw_cons_cons] at h
      have h2 := (Bool.and_eq_true _ _).mp h
      have := ih m2 l (fun a ha => hq a (by simp [ha])) (fun a ha => hm a (by simp [ha])) h2.2
      simp [this]

/-- A `>`-free pattern that matches inside `m ++ '>' :: l` fits within `m`. -/
theorem lsw_le_length : ∀ (q m l : List Char), (∀ x ∈ q, x ≠ '>') →
    (∀ c ∈ m, c ≠ '>') →
    lowerStartsWith q (m ++ '>' :: l) = true →
    q.length ≤ m.length := by
  intro q
  induction q with
  | nil => intro m l _ _ _; simp
  | cons x q2 ih =>
    intro m l hq hm h
    cases m with
    | nil =>
      exfalso
      rw [List.nil_append, lsw_cons_cons] at h
      have h2 : Char.toLower '>' = x := by
        have := (Bool.and_eq_true _ _).mp h
        simpa using this.1
      have h3 : Char.toLower '>' = '>' := by decide
      exact hq x (by simp) (by rw [← h2, h3])
    | cons c m2 =>
      rw [List.cons_append, lsw_cons_cons] at h
      have h2 := (Bool.and_eq_true _ _).mp h
      have := ih m2 l (fun a ha => hq a (by simp [ha])) (fun a ha => hm a (by simp [ha])) h2.2
      simp
      omega

theorem findGt_pass (m l : List Char) (hm : ∀ c ∈ m, c ≠ '>') :
    findGt (m ++ '>' :: l) = some l := by
  induction m with
  | nil => simp [findGt]
  | cons x m2 ih =>
    rw [List.cons_append]
    unfold findGt
    rw [if_neg (hm x (by simp))]
    exact ih (fun c hc => hm c (by simp [hc]))

theorem findTagEndGt_pass (m l : List Char)
    (hm : ∀ c ∈ m, c ≠ '>' ∧ c ≠ '<') :
    findTagEnd.findTagEndGt (m ++ '>' :: l) = some l := by
  induction m with
  | nil => simp [findTagEnd.findTagEndGt]
  | cons x m2 ih =>
    rw [List.cons_append]
    unfold findTagEnd.findTagEndGt
    rw [if_neg (hm x (by simp)).1, if_neg (hm x (by simp)).2]
    exact ih (fun c hc => hm c (by simp [hc]))

theorem findCloseTag_cons (tag : List Char) (c : Char) (rest : List Char) :
    findCloseTag tag (c :: rest) =
      if lowerStartsWith (closePattern tag) (c :: rest) = true then
        some ((c :: rest).drop (closePattern tag).length)
      else findCloseTag tag rest := rfl

theorem findCloseTag_skip (tag : List Char) : ∀ (m l : List Char),
    (∀ c ∈ m, Char.toLower c ≠ '<') →
    findCloseTag tag (m ++ l) = findCloseTag tag l := by
  intro m
  induction m with
  | nil => intro l _; simp
  | cons x m2 ih =>
    intro l hm
    rw [List.cons_append, findCloseTag_cons]
    have hx : lowerStartsWith (closePattern tag) (x :: (m2 ++ l)) = false := by
      unfold closePattern
      rw [lsw_cons_cons]
      have : (Char.toLower x == '<') = false := by
        simpa using hm x (by simp)
      simp [this]
    rw [hx]
    simp only [Bool.false_eq_true, if_false]
    exact ih l (fun c hc => hm c (by simp [hc]))

/-- On a tags-and-whitespace string, a close-tag search either fails or
stops exactly at the end of a whole `</tag>` item, leaving a
tags-and-whitespace suffix. -/
theorem findCloseTag_tagsws (tag : List Char)
    (htag : ∀ x ∈ tag, x ≠ '>') :
    ∀ (l : List Char), TagsWs l →
    findCloseTag tag l = none ∨
      ∃ r, findCloseTag tag l = some r ∧ TagsWs r := by
  intro l h
  induction h with
  | nil => left; rfl
  | ws c l2 h1 h2 ih =>
    have hc : Char.toLower c ≠ '<' :=
      toLower_ne_lt_of_ne c (isPyWs_ne_special c h1).1
    have hskip := findCloseTag_skip tag [c] l2 (by simpa using hc)
    rw [List.cons_append, List.nil_append] at hskip
    rw [hskip]
    exact ih
  | nbsp l2 h2 ih =>
    have hskip := findCloseTag_skip tag ['&', 'n', 'b', 's', 'p', ';'] l2
      (by intro c hc; fin_cases hc <;> decide)
    simp only [List.cons_append, List.nil_append] at hskip
    rw [hskip]
    exact ih
  | tag body l2 hne hcon h2 ih =>
    have hform : ('<' :: body) ++ '>' :: l2 = '<' :: (body ++ '>' :: l2) := by
      simp
    rw [hform]
    by_cases hmatch :
        lowerStartsWith (closePattern tag) ('<' :: (body ++ '>' :: l2)) = true
    · right
      have hbody : ∀ c ∈ body, c ≠ '>' := fun c hc => (hcon c hc).2
      have hq : ∀ x ∈ '/' :: tag, x ≠ '>' := by
        intro x hx
        rcases List.mem_cons.mp hx with h3 | h3
        · rw [h3]; decide
        · exact htag x h3
      have hlen : body.length = ('/' :: tag).length := by
        apply lsw_gt_length ('/' :: tag) body l2 hq hbody
        have hcp : closePattern tag = '<' :: (('/' :: tag) ++ ['>']) := by
          simp [closePattern]
        rw [hcp, lsw_cons_cons] at hmatch
        have h3 := (Bool.and_eq_true _ _).mp hmatch
        exact h3.2
      refine ⟨l2, ?_, h2⟩
      rw [findCloseTag_cons, if_pos hmatch]
      have hsplit : '<' :: (body ++ '>' :: l2) =
          (('<' :: body) ++ ['>']) ++ l2 := by simp
      rw [hsplit, List.drop_left']
      simp [closePattern, hlen]
    · have hmf : lowerStartsWith (closePattern tag)
          ('<' :: (body ++ '>' :: l2)) = false := by
        simpa using hmatch
      rw [findCloseTag_cons, hmf]
      simp only [Bool.false_eq_true, if_false]
      have hskip := findCloseTag_skip tag (body ++ ['>']) l2 ?hm
      case hm =>
        intro c hc
        rcases List.mem_append.mp hc with h3 | h3
        · exact toLower_ne_lt_of_ne c (hcon c h3).1
        · simp at h3
          rw [h3]
          decide
      rw [List.append_assoc] at hskip
      simp only [List.cons_append, List.singleton_append, List.nil_append]
        at hskip ⊢
      rw [hskip]
      exact ih

theorem drop_append_le : ∀ (k : Nat) (m l : List Char), k ≤ m.length →
    (m ++ l).drop k = m.drop k ++ l := by
  intro k
  induction k with
  | zero => intro m l _; simp
  | succ k ih =>
    intro m l h
    cases m with
    | nil => simp at h
    | cons c m2 =>
      simp only [List.cons_append, List.drop_succ_cons]
      exact ih m2 l (by simpa using h)

theorem matchSS_ne (c : Char) (l : List Char) (hc : c ≠ '<') :
    matchScriptStyle (c :: l) = none := by
  unfold matchScriptStyle
  split
  · rename_i heq
    exfalso
    injection heq with h1 _
    exact hc h1
  · rfl

theorem matchSS_cons_lt (rest : List Char) :
    matchScriptStyle ('<' :: rest) =
      (if lowerStartsWith scriptChars rest = true then
        match findGt (rest.drop 6) with
        | some afterOpen => findCloseTag scriptChars afterOpen
        | none => none
      else if lowerStartsWith styleChars rest = true then
        match findGt (rest.drop 5) with
        | some afterOpen => findCloseTag styleChars afterOpen
        | none => none
      else none) := rfl

/-- On a tags-and-whitespace string starting with a tag, the script/style
regex either fails or consumes whole items, leaving a tags-and-whitespace
suffix. -/
theorem matchSS_tagsws (body l2 : List Char)
    (hcon : ∀ c ∈ body, c ≠ '<' ∧ c ≠ '>') (h2 : TagsWs l2) :
    matchScriptStyle ('<' :: (body ++ '>' :: l2)) = none ∨
      ∃ r, matchScriptStyle ('<' :: (body ++ '>' :: l2)) = some r ∧
        TagsWs r := by
  have hbody : ∀ c ∈ body, c ≠ '>' := fun c hc => (hcon c hc).2
  rw [matchSS_cons_lt]
  by_cases hs : lowerStartsWith scriptChars (body ++ '>' :: l2) = true
  · rw [if_pos hs]
    have h6 : 6 ≤ body.length := by
      have := lsw_le_length scriptChars body l2 (by decide) hbody hs
      simpa [scriptChars] using this
    have hdrop : (body ++ '>' :: l2).drop 6 = body.drop 6 ++ '>' :: l2 :=
      drop_append_le 6 body _ h6
    rw [hdrop, findGt_pass _ _
      (fun c hc => hbody c (List.mem_of_mem_drop hc))]
    rcases findCloseTag_tagsws scriptChars (by decide) l2 h2 with hn | ⟨r, hr, htw⟩
    · left
      exact hn
    · right
      exact ⟨r, hr, htw⟩
  · rw [if_neg hs]
    by_cases ht : lowerStartsWith styleChars (body ++ '>' :: l2) = true
    · rw [if_pos ht]
      have h5 : 5 ≤ body.length := by
        have := lsw_le_length styleChars body l2 (by decide) hbody ht
        simpa [styleChars] using this
      have hdrop : (body ++ '>' :: l2).drop 5 = body.drop 5 ++ '>' :: l2 :=
        drop_append_le 5 body _ h5
      rw [hdrop, findGt_pass _ _
        (fun c hc => hbody c (List.mem_of_mem_drop hc))]
      rcases findCloseTag_tagsws styleChars (by decide) l2 h2 with hn | ⟨r, hr, htw⟩
      · left
        exact hn
      · right
        exact ⟨r, hr, htw⟩
    · rw [if_neg ht]
      left
      rfl

theorem nbsp_chars_ne_lt : ∀ c ∈ ['&', 'n', 'b', 's', 'p', ';'], c ≠ '<' := by
  decide

theorem removeScriptStyle_tagsws : ∀ (n : Nat) (l : List Char),
    l.length ≤ n → TagsWs l → TagsWs (removeScriptStyle l) := by
  intro n
  induction n with
  | zero =>
    intro l hl h
    have hnil : l = [] := by
      cases l with
      | nil => rfl
      | cons c r => simp at hl
    rw [hnil, removeScriptStyle_nil]
    exact TagsWs.nil
  | succ n ih =>
    intro l hl h
    cases h with
    | nil =>
      rw [removeScriptStyle_nil]
      exact TagsWs.nil
    | ws c l2 h1 h2 =>
      rw [removeScriptStyle_cons_ne c l2 (isPyWs_ne_special c h1).1]
      have hlen : l2.length ≤ n := by
        simp only [List.length_cons] at hl
        omega
      exact TagsWs.ws c _ h1 (ih l2 hlen h2)
    | nbsp l2 h2 =>
      have happ := removeScriptStyle_append ['&', 'n', 'b', 's', 'p', ';'] l2
        nbsp_chars_ne_lt
      simp only [List.cons_append, List.nil_append] at happ
      rw [happ]
      have hlen : l2.length ≤ n := by
        simp only [List.length_cons] at hl
        omega
      exact TagsWs.nbsp _ (ih l2 hlen h2)
    | tag body l2 hne hcon h2 =>
      have hform : ('<' :: body) ++ '>' :: l2 = '<' :: (body ++ '>' :: l2) := by
        simp
      rw [hform]
      have hlen2 : l2.length ≤ n := by
        have : (('<' :: body) ++ '>' :: l2).length = body.length + l2.length + 2 := by
          simp
          omega
        rw [this] at hl
        omega
      rcases matchSS_tagsws body l2 hcon h2 with hm | ⟨r, hr, htw⟩
      · rw [removeScriptStyle_nomatch _ hm]
        have happ := removeScriptStyle_append (body ++ ['>']) l2 ?hbo
        case hbo =>
          intro c hc
          rcases List.mem_append.mp hc with h3 | h3
          · exact (hcon c h3).1
          · simp at h3
            rw [h3]
            decide
        rw [List.append_assoc] at happ
        simp only [List.cons_append, List.singleton_append, List.nil_append]
          at happ
        rw [happ]
        have := TagsWs.tag body (removeScriptStyle l2) hne hcon
          (ih l2 hlen2 h2)
        simpa using this
      · rw [removeScriptStyle_match _ _ hr]
        have hrlen : r.length ≤ n := by
          have := matchScriptStyle_length _ _ hr
          simp at this
          have hl2 : ('<' :: (body ++ '>' :: l2)).length ≤ n + 1 := by
            rw [← hform]
            exact hl
          simp at hl2
          omega
        exact ih r hrlen htw

theorem stripTags_tagsws (l : List Char) (h : TagsWs l) :
    WsEnt (stripTags l) := by
  induction h with
  | nil =>
    rw [stripTags_nil]
    exact WsEnt.nil
  | ws c l2 h1 h2 ih =>
    rw [stripTags_cons_ne c l2 (isPyWs_ne_special c h1).1]
    exact WsEnt.ws c _ h1 ih
  | nbsp l2 h2 ih =>
    have happ := stripTags_append ['&', 'n', 'b', 's', 'p', ';'] l2
      nbsp_chars_ne_lt
    simp only [List.cons_append, List.nil_append] at happ
    rw [happ]
    exact WsEnt.nbsp _ ih
  | tag body l2 hne hcon h2 ih =>
    have hform : ('<' :: body) ++ '>' :: l2 = '<' :: (body ++ '>' :: l2) := by
      simp
    rw [hform]
    obtain ⟨b0, body2, hb⟩ : ∃ b0 body2, body = b0 :: body2 := by
      cases body with
      | nil => exact absurd rfl hne
      | cons b0 body2 => exact ⟨b0, body2, rfl⟩
    have hfte : findTagEnd (body ++ '>' :: l2) = some l2 := by
      rw [hb, List.cons_append, findTagEnd_cons,
        if_neg (hcon b0 (by rw [hb]; simp)).1]
      exact findTagEndGt_pass body2 l2
        (fun c hc => ⟨(hcon c (by rw [hb]; simp [hc])).2,
          (hcon c (by rw [hb]; simp [hc])).1⟩)
    rw [stripTags_match _ _ hfte]
    exact WsEnt.ws ' ' _ (by decide) ih

theorem matchEntity_nbsp (l : List Char) :
    matchEntity ('n' :: 'b' :: 's' :: 'p' :: ';' :: l) = some ('\xA0', l) := rfl

theorem unescape_wsent (l : List Char) (h : WsEnt l) :
    ∀ c ∈ unescape l, isPyWs c = true := by
  induction h with
  | nil =>
    rw [unescape_nil]
    simp
  | ws c l2 h1 h2 ih =>
    rw [unescape_cons_ne c l2 (isPyWs_ne_special c h1).2.2]
    intro x hx
    rcases List.mem_cons.mp hx with h3 | h3
    · rw [h3]; exact h1
    · exact ih x h3
  | nbsp l2 h2 ih =>
    rw [unescape_match _ _ _ (matchEntity_nbsp l2)]
    intro x hx
    rcases List.mem_cons.mp hx with h3 | h3
    · rw [h3]; decide
    · exact ih x h3

theorem collapseWs_mem : ∀ (l : List Char) (c : Char), c ∈ collapseWs l →
    c = ' ' ∨ c ∈ l
  | [], c, hc => by simp [collapseWs] at hc
  | [d], c, hc => by
    unfold collapseWs at hc
    split at hc
    · simp at hc
      exact Or.inl hc
    · simp at hc
      exact Or.inr (by simp [hc])
  | c0 :: d :: rest, c, hc => by
    unfold collapseWs at hc
    split at hc
    · rcases collapseWs_mem (d :: rest) c hc with h1 | h1
      · exact Or.inl h1
      · exact Or.inr (List.mem_cons_of_mem c0 h1)
    · rcases List.mem_cons.mp hc with h1 | h1
      · by_cases hw : isPyWs c0 = true
        · rw [if_pos hw] at h1
          exact Or.inl h1
        · rw [if_neg hw] at h1
          exact Or.inr (by simp [h1])
      · rcases collapseWs_mem (d :: rest) c h1 with h2 | h2
        · exact Or.inl h2
        · exact Or.inr (List.mem_cons_of_mem c0 h2)

theorem pyStrip_all_ws (l : List Char) (h : ∀ c ∈ l, isPyWs c = true) :
    pyStrip l = [] := by
  unfold pyStrip
  rw [List.dropWhile_eq_nil_iff.mpr h]
  simp

/-- C6: the sanitizer collapses a string consisting only of HTML tags,
whitespace, and whitespace-decoding entities to the empty string; and on
every nonempty input it is exactly the pipeline: script/style removal,
tag-to-space replacement, entity decoding, whitespace collapsing, then a
final strip.  (An input that is only a non-whitespace entity such as
`&amp;` decodes to its character and is not collapsed to empty; see the
counterexample.) -/
theorem c6_html_sanitizer (l : List Char) :
    (TagsWs l → clean_html l = []) ∧
    (l ≠ [] → clean_html l =
      pyStrip (collapseWs (unescape (stripTags (removeScriptStyle l))))) := by
  constructor
  · intro h
    unfold clean_html
    by_cases hl : l = []
    · rw [if_pos hl]
    · rw [if_neg hl]
      have h1 := removeScriptStyle_tagsws l.length l (Nat.le_refl _) h
      have h2 := stripTags_tagsws _ h1
      have h3 := unescape_wsent _ h2
      apply pyStrip_all_ws
      intro c hc
      rcases collapseWs_mem _ c hc with h4 | h4
      · rw [h4]
        decide
      · exact h3 c h4
  · intro hl
    unfold clean_html
    rw [if_neg hl]

/-- Witness for C6: a concrete tags-and-whitespace string sanitizes to
the empty string. -/
theorem c6_html_sanitizer_witness : clean_html "<p>\n<br>".data = [] := by
  apply (c6_html_sanitizer "<p>\n<br>".data).1
  have he : "<p>\n<br>".data =
      ('<' :: ['p']) ++ '>' :: ('\n' :: (('<' :: ['b', 'r']) ++ '>' :: [])) := by
    decide
  rw [he]
  exact TagsWs.tag ['p'] _ (by decide) (by decide)
    (TagsWs.ws '\n' _ (by decide)
      (TagsWs.tag ['b', 'r'] [] (by decide) (by decide) TagsWs.nil))

/-- Counterexample for C6 as stated: the entity-only input `&amp;`
decodes to `&`, so the sanitizer does not return the empty string on
every input consisting only of tags and entities. -/
theorem c6_entity_counterexample :
    clean_html "&amp;".data = ['&'] ∧ clean_html "&amp;".data ≠ [] := by
  constructor
  · decide
  · decide

set_option maxRecDepth 4000 in
theorem estimatePromptIntro_ne_nil : estimatePromptIntro ≠ [] := by decide

set_option maxRecDepth 4000 in
theorem summarizePromptIntro_ne_nil : summarizePromptIntro ≠ [] := by decide

set_option maxRecDepth 4000 in
theorem estimatePromptSMSIntro_ne_nil : estimatePromptSMSIntro ≠ [] := by
  decide

theorem estimatePrompt_ne_nil (course title dueStr : List Char)
    (url : Option (List Char)) (desc : List Char) :
    estimatePrompt course title dueStr url desc ≠ [] := by
  intro h
  have h2 := congrArg List.length h
  simp only [estimatePrompt, List.length_append, List.length_nil] at h2
  have h3 : 0 < estimatePromptIntro.length := by
    set_option maxRecDepth 4000 in decide
  omega

theorem summarizePrompt_ne_nil (course title dueStr desc : List Char) :
    summarizePrompt course title dueStr desc ≠ [] := by
  intro h
  have h2 := congrArg List.length h
  simp only [summarizePrompt, List.length_append, List.length_nil] at h2
  have h3 : 0 < summarizePromptIntro.length := by
    set_option maxRecDepth 4000 in decide
  omega

theorem estimatePromptSMS_ne_nil (course title dueStr : List Char)
    (url : Option (List Char)) (desc : List Char) :
    estimatePromptSMS course title dueStr url desc ≠ [] := by
  intro h
  have h2 := congrArg List.length h
  simp only [estimatePromptSMS, List.length_append, List.length_nil] at h2
  have h3 : 0 < estimatePromptSMSIntro.length := by
    set_option maxRecDepth 4000 in decide
  omega

theorem truncateDesc_nil (maxLen : Nat) : truncateDesc maxLen [] = [] := by
  simp [truncateDesc]

/-- C3 (amended): in the Telegram-bot variant both AI operations return
nothing and send no prompt when the description is absent, empty, or
sanitizes to the empty string; every prompt any variant sends is
nonempty; the email-to-SMS variant skips only when the raw description is
empty (see the counterexample for the sanitized-empty case). -/
theorem c3_ai_skip_rules (oracle : List Char → Option (List Char))
    (course title dueStr : List Char) (url : Option (List Char)) :
    (∀ d : Option (List Char),
      (d = none ∨ d = some [] ∨ (∃ s, d = some s ∧ clean_html s = [])) →
      estimate_time_via_ai oracle course title dueStr d url = (none, []) ∧
      summarize_assignment_via_ai oracle course title dueStr d = (none, [])) ∧
    (∀ (d : Option (List Char)) (p : List Char),
      p ∈ (estimate_time_via_ai oracle course title dueStr d url).2 →
        p ≠ []) ∧
    (∀ (d : Option (List Char)) (p : List Char),
      p ∈ (summarize_assignment_via_ai oracle course title dueStr d).2 →
        p ≠ []) ∧
    (∀ (d p : List Char),
      p ∈ (estimate_time_via_ai_sms oracle course title dueStr d url).2 →
        p ≠ []) ∧
    estimate_time_via_ai_sms oracle course title dueStr [] url =
      (none, []) := by
  refine ⟨?_, ?_, ?_, ?_, by simp [estimate_time_via_ai_sms]⟩
  · intro d hd
    rcases hd with h | h | ⟨s, hs, hcl⟩
    · subst h
      exact ⟨rfl, rfl⟩
    · subst h
      exact ⟨rfl, rfl⟩
    · subst hs
      cases s with
      | nil => exact ⟨rfl, rfl⟩
      | cons c s2 =>
        constructor
        · simp [estimate_time_via_ai, hcl, truncateDesc_nil]
        · simp [summarize_assignment_via_ai, hcl, truncateDesc_nil]
  · intro d p hp
    cases d with
    | none => simp [estimate_time_via_ai] at hp
    | some s =>
      cases s with
      | nil => simp [estimate_time_via_ai] at hp
      | cons c s2 =>
        by_cases hc : truncateDesc 1000 (clean_html (c :: s2)) = []
        · simp [estimate_time_via_ai, hc] at hp
        · cases ho : oracle (estimatePrompt course title dueStr url
              (truncateDesc 1000 (clean_html (c :: s2)))) with
          | none =>
            simp [estimate_time_via_ai, hc, ho] at hp
            rw [hp]
            exact estimatePrompt_ne_nil course title dueStr url _
          | some reply =>
            simp [estimate_time_via_ai, hc, ho] at hp
            rw [hp]
            exact estimatePrompt_ne_nil course title dueStr url _
  · intro d p hp
    cases d with
    | none => simp [summarize_assignment_via_ai] at hp
    | some s =>
      cases s with
      | nil => simp [summarize_assignment_via_ai] at hp
      | cons c s2 =>
        by_cases hc : truncateDesc 1500 (clean_html (c :: s2)) = []
        · simp [summarize_assignment_via_ai, hc] at hp
        · cases ho : oracle (summarizePrompt course title dueStr
              (truncateDesc 1500 (clean_html (c :: s2)))) with
          | none =>
            simp [summarize_assignment_via_ai, hc, ho] at hp
            rw [hp]
            exact summarizePrompt_ne_nil course title dueStr _
          | some reply =>
            simp [summarize_assignment_via_ai, hc, ho] at hp
            rw [hp]
            exact summarizePrompt_ne_nil course title dueStr _
  · intro d p hp
    by_cases hd : d = []
    · simp [estimate_time_via_ai_sms, hd] at hp
    · cases ho : oracle (estimatePromptSMS course title dueStr url d) with
      | none =>
        simp [estimate_time_via_ai_sms, hd, ho] at hp
        rw [hp]
        exact estimatePromptSMS_ne_nil course title dueStr url _
      | some reply =>
        simp [estimate_time_via_ai_sms, hd, ho] at hp
        rw [hp]
        exact estimatePromptSMS_ne_nil course title dueStr url _

/-- Witness for C3: a description that is pure markup sanitizes to empty
and both Telegram-variant operations skip without sending a prompt. -/
theorem c3_ai_skip_rules_witness :
    estimate_time_via_ai (fun _ => some ['2']) ['c'] ['t'] ['m']
      (some "<p></p>".data) none = (none, []) ∧
    summarize_assignment_via_ai (fun _ => some ['2']) ['c'] ['t'] ['m']
      (some "<p></p>".data) = (none, []) :=
  (c3_ai_skip_rules (fun _ => some ['2']) ['c'] ['t'] ['m'] none).1
    (some "<p></p>".data)
    (Or.inr (Or.inr ⟨"<p></p>".data, rfl, by decide⟩))

/-- Counterexample for C3 as stated: the email-to-SMS variant does call
the LLM and returns an estimate for a description whose sanitized form is
empty. -/
theorem c3_sms_counterexample :
    clean_html "<p></p>".data = [] ∧
    (estimate_time_via_ai_sms (fun _ => some ['2']) ['c'] ['t'] ['m']
      "<p></p>".data none).1 = some 20 ∧
    (estimate_time_via_ai_sms (fun _ => some ['2']) ['c'] ['t'] ['m']
      "<p></p>".data none).2 ≠ [] := by
  refine ⟨by decide, by decide, by decide⟩

/-! ## Numeric-token extraction lemmas (C4) -/

theorem takeWhile_append_all (p : Char → Bool) (m l : List Char)
    (h : ∀ c ∈ m, p c = true) :
    (m ++ l).takeWhile p = m ++ l.takeWhile p := by
  induction m with
  | nil => simp
  | cons x m2 ih =>
    rw [List.cons_append, List.takeWhile_cons, if_pos (h x (by simp)),
      ih (fun c hc => h c (by simp [hc])), List.cons_append]

theorem dropWhile_append_all (p : Char → Bool) (m l : List Char)
    (h : ∀ c ∈ m, p c = true) :
    (m ++ l).dropWhile p = l.dropWhile p := by
  induction m with
  | nil => simp
  | cons x m2 ih =>
    rw [List.cons_append, List.dropWhile_cons, if_pos (h x (by simp))]
    exact ih (fun c hc => h c (by simp [hc]))

theorem takeWhile_nil_head (p : Char → Bool) (l : List Char)
    (h : ∀ c, l.head? = some c → p c = false) : l.takeWhile p = [] := by
  cases l with
  | nil => rfl
  | cons c rest =>
    rw [List.takeWhile_cons, if_neg]
    simp [h c (by simp)]

theorem dropWhile_self_head (p : Char → Bool) (l : List Char)
    (h : ∀ c, l.head? = some c → p c = false) : l.dropWhile p = l := by
  cases l with
  | nil => rfl
  | cons c rest =>
    rw [List.dropWhile_cons, if_neg]
    simp [h c (by simp)]

theorem numToken_renderTok (ip rest : List Char) (fp : Option (List Char))
    (hipd : ∀ c ∈ ip, c.isDigit = true)
    (hfp : ∀ f, fp = some f → f ≠ [] ∧ ∀ c ∈ f, c.isDigit = true)
    (hrest : ∀ c, rest.head? = some c → c.isDigit = false)
    (hnodot : fp = none → ∀ d r2, rest = '.' :: d :: r2 → d.isDigit = false) :
    numToken (renderTok ip fp ++ rest) = renderTok ip fp := by
  cases fp with
  | none =>
    show numToken (ip ++ rest) = ip
    have h1 : List.takeWhile Char.isDigit (ip ++ rest) = ip := by
      rw [takeWhile_append_all _ _ _ hipd, takeWhile_nil_head _ _ hrest,
        List.append_nil]
    have h2 : List.dropWhile Char.isDigit (ip ++ rest) = rest := by
      rw [dropWhile_append_all _ _ _ hipd, dropWhile_self_head _ _ hrest]
    unfold numToken
    rw [h1, h2]
    cases rest with
    | nil => rfl
    | cons c r2 =>
      by_cases hc : c = '.'
      · subst hc
        cases r2 with
        | nil => rfl
        | cons d r3 =>
          have hd := hnodot rfl d r3 rfl
          have hfs : List.takeWhile Char.isDigit (d :: r3) = [] := by
            rw [List.takeWhile_cons, if_neg (by simp [hd])]
          simp only [hfs]
          rfl
      · split
        · rename_i r2b heq
          exfalso
          injection heq with hh1 hh2
          exact hc hh1
        · rfl
  | some f =>
    obtain ⟨hfne, hfd⟩ := hfp f rfl
    show numToken ((ip ++ '.' :: f) ++ rest) = ip ++ '.' :: f
    have hsplit : (ip ++ '.' :: f) ++ rest = ip ++ '.' :: (f ++ rest) := by
      simp
    have hdot : ∀ c : Char, ('.' :: (f ++ rest)).head? = some c →
        c.isDigit = false := by
      intro c hc
      simp at hc
      subst hc
      rfl
    have h1 : List.takeWhile Char.isDigit ((ip ++ '.' :: f) ++ rest) = ip := by
      rw [hsplit, takeWhile_append_all _ _ _ hipd,
        takeWhile_nil_head _ _ hdot, List.append_nil]
    have h2 : List.dropWhile Char.isDigit ((ip ++ '.' :: f) ++ rest) =
        '.' :: (f ++ rest) := by
      rw [hsplit, dropWhile_append_all _ _ _ hipd,
        dropWhile_self_head _ _ hdot]
    have hfs : List.takeWhile Char.isDigit (f ++ rest) = f := by
      rw [takeWhile_append_all _ _ _ hfd, takeWhile_nil_head _ _ hrest,
        List.append_nil]
    unfold numToken
    rw [h1, h2]
    simp only [hfs]
    rw [if_neg hfne]

theorem tokenTenths_renderTok (ip : List Char) (fp : Option (List Char))
    (hipd : ∀ c ∈ ip, c.isDigit = true)
    (hfp : ∀ f, fp = some f → f ≠ [] ∧ ∀ c ∈ f, c.isDigit = true) :
    tokenTenths (renderTok ip fp) =
      (match fp with
       | none => 10 * digitsVal ip
       | some f => roundHalfEvenFrac
           (10 * (digitsVal ip * 10 ^ f.length + digitsVal f))
           (10 ^ f.length)) := by
  cases fp with
  | none =>
    show tokenTenths ip = 10 * digitsVal ip
    have h1 : List.takeWhile Char.isDigit ip = ip := by
      have := takeWhile_append_all Char.isDigit ip [] hipd
      simpa using this
    have h2 : List.dropWhile Char.isDigit ip = [] := by
      have := dropWhile_append_all Char.isDigit ip [] hipd
      simpa using this
    unfold tokenTenths
    rw [h1, h2]
  | some f =>
    obtain ⟨hfne, hfd⟩ := hfp f rfl
    show tokenTenths (ip ++ '.' :: f) = _
    have h1 : List.takeWhile Char.isDigit (ip ++ '.' :: f) = ip := by
      rw [takeWhile_append_all _ _ _ hipd, List.takeWhile_cons, if_neg (by simp),
        List.append_nil]
    have h2 : List.dropWhile Char.isDigit (ip ++ '.' :: f) = '.' :: f := by
      rw [dropWhile_append_all _ _ _ hipd, List.dropWhile_cons, if_neg (by simp)]
    unfold tokenTenths
    rw [h1, h2]
    rfl

theorem extractNumber_cons (c : Char) (rest : List Char) :
    extractNumber (c :: rest) =
      if c.isDigit = true then some (numToken (c :: rest))
      else extractNumber rest := rfl

theorem parseToken_renderTok (ip : List Char) (fp : Option (List Char))
    (hipd : ∀ c ∈ ip, c.isDigit = true)
    (hfp : ∀ f, fp = some f → f ≠ [] ∧ ∀ c ∈ f, c.isDigit = true) :
    parseToken (renderTok ip fp) = tokVal ip fp := by
  cases fp with
  | none =>
    show parseToken ip = (digitsVal ip : Rat)
    have h1 : List.takeWhile Char.isDigit ip = ip := by
      have := takeWhile_append_all Char.isDigit ip [] hipd
      simpa using this
    have h2 : List.dropWhile Char.isDigit ip = [] := by
      have := dropWhile_append_all Char.isDigit ip [] hipd
      simpa using this
    unfold parseToken
    rw [h1, h2]
  | some f =>
    obtain ⟨hfne, hfd⟩ := hfp f rfl
    show parseToken (ip ++ '.' :: f) = _
    have h1 : List.takeWhile Char.isDigit (ip ++ '.' :: f) = ip := by
      rw [takeWhile_append_all _ _ _ hipd, List.takeWhile_cons, if_neg (by simp),
        List.append_nil]
    have h2 : List.dropWhile Char.isDigit (ip ++ '.' :: f) = '.' :: f := by
      rw [dropWhile_append_all _ _ _ hipd, List.dropWhile_cons, if_neg (by simp)]
    unfold parseToken
    rw [h1, h2]
    rfl

theorem extractNumber_skip (pre l : List Char)
    (hpre : ∀ c ∈ pre, c.isDigit = false) :
    extractNumber (pre ++ l) = extractNumber l := by
  induction pre with
  | nil => simp
  | cons x pre2 ih =>
    rw [List.cons_append, extractNumber_cons,
      if_neg (by simp [hpre x (by simp)])]
    exact ih (fun c hc => hpre c (by simp [hc]))

theorem extractNumber_head_digit (c : Char) (rest : List Char)
    (h : c.isDigit = true) :
    extractNumber (c :: rest) = some (numToken (c :: rest)) := by
  rw [extractNumber_cons, if_pos h]

theorem extractNumber_none_iff (l : List Char) :
    extractNumber l = none ↔ ∀ c ∈ l, c.isDigit = false := by
  induction l with
  | nil => simp [extractNumber]
  | cons c rest ih =>
    rw [extractNumber_cons]
    by_cases hc : c.isDigit = true
    · rw [if_pos hc]
      simp [hc]
    · rw [if_neg hc]
      simp only [Bool.not_eq_true] at hc
      rw [ih]
      constructor
      · intro h x hx
        rcases List.mem_cons.mp hx with h1 | h1
        · rw [h1]; exact hc
        · exact h x h1
      · intro h x hx
        exact h x (List.mem_cons_of_mem c hx)

theorem mem_of_mem_pyStrip (c : Char) (l : List Char)
    (hc : c ∈ pyStrip l) : c ∈ l := by
  unfold pyStrip at hc
  rw [List.mem_reverse] at hc
  have h1 := (List.dropWhile_sublist isPyWs).subset hc
  rw [List.mem_reverse] at h1
  exact (List.dropWhile_sublist isPyWs).subset h1

theorem mem_dropWhile_of_mem (p : Char → Bool) (c : Char) :
    ∀ (l : List Char), c ∈ l → p c = false → c ∈ l.dropWhile p := by
  intro l
  induction l with
  | nil => intro h _; simp at h
  | cons x rest ih =>
    intro hc hp
    rw [List.dropWhile_cons]
    by_cases hx : p x = true
    · rw [if_pos hx]
      rcases List.mem_cons.mp hc with h1 | h1
      · exfalso
        rw [h1] at hp
        rw [hp] at hx
        exact Bool.noConfusion hx
      · exact ih h1 hp
    · rw [if_neg hx]
      exact hc

theorem mem_pyStrip_of_mem (c : Char) (l : List Char) (hc : c ∈ l)
    (hw : isPyWs c = false) : c ∈ pyStrip l := by
  unfold pyStrip
  rw [List.mem_reverse]
  apply mem_dropWhile_of_mem _ _ _ _ hw
  rw [List.mem_reverse]
  exact mem_dropWhile_of_mem _ _ _ hc hw

theorem isPyWs_not_digit (c : Char) (h : isPyWs c = true) :
    c.isDigit = false := by
  unfold isPyWs at h
  simp only [Bool.or_eq_true, decide_eq_true_eq] at h
  rcases h with (((((((h | h) | h) | h) | h) | h) | h) | h) <;> subst h <;> decide

theorem digit_not_isPyWs (c : Char) (h : c.isDigit = true) :
    isPyWs c = false := by
  by_cases hw : isPyWs c = true
  · rw [isPyWs_not_digit c hw] at h
    exact Bool.noConfusion h
  · simpa using hw

theorem rat_floor_eq_int_floor (q : Rat) : q.floor = ⌊q⌋ := by
  rw [Rat.floor_def', Rat.floor_def]

theorem roundHalfEvenFrac_one (n : Nat) : roundHalfEvenFrac n 1 = n := by
  unfold roundHalfEvenFrac
  simp [Nat.mod_one]

theorem roundHalfEven_div (n d : Nat) (hd : 0 < d) :
    roundHalfEven ((n : Rat) / (d : Rat)) = (roundHalfEvenFrac n d : Nat) := by
  have hdq : (0 : Rat) < (d : Rat) := by exact_mod_cast hd
  have hfl : ((n : Rat) / (d : Rat)).floor = ((n / d : Nat) : Int) := by
    rw [rat_floor_eq_int_floor, Rat.floor_natCast_div_natCast]
    exact (Int.ofNat_div n d).symm
  have hq : (n : Rat) / d = ((n / d : Nat) : Rat) + ((n % d : Nat) : Rat) / d := by
    have h1 : (n : Rat) = ((d * (n / d) + n % d : Nat) : Rat) := by
      rw [Nat.div_add_mod]
    rw [h1]
    push_cast
    field_simp
    ring
  have hr : (n : Rat) / d - (((n / d : Nat) : Int) : Rat) =
      ((n % d : Nat) : Rat) / d := by
    rw [hq]
    have h5 : (((n / d : Nat) : Int) : Rat) = ((n / d : Nat) : Rat) := by
      norm_cast
    rw [h5]
    ring
  have hlt1 : (((n % d : Nat) : Rat) / d < 1 / 2) ↔ (2 * (n % d) < d) := by
    rw [div_lt_div_iff hdq (by norm_num : (0 : Rat) < 2)]
    constructor
    · intro h
      have h3 : ((2 * (n % d) : Nat) : Rat) < (d : Rat) := by push_cast; linarith
      exact_mod_cast h3
    · intro h
      have h3 : ((2 * (n % d) : Nat) : Rat) < (d : Rat) := by exact_mod_cast h
      push_cast at h3
      linarith
  have hlt2 : (1 / 2 < ((n % d : Nat) : Rat) / d) ↔ (d < 2 * (n % d)) := by
    rw [div_lt_div_iff (by norm_num : (0 : Rat) < 2) hdq]
    constructor
    · intro h
      have h3 : (d : Rat) < ((2 * (n % d) : Nat) : Rat) := by push_cast; linarith
      exact_mod_cast h3
    · intro h
      have h3 : (d : Rat) < ((2 * (n % d) : Nat) : Rat) := by exact_mod_cast h
      push_cast at h3
      linarith
  have hmod : (((n / d : Nat) : Int) % 2 = 0) ↔ ((n / d) % 2 = 0) := by
    omega
  unfold roundHalfEven roundHalfEvenFrac
  rw [hfl, hr]
  by_cases hc1 : 2 * (n % d) < d
  · rw [if_pos (hlt1.mpr hc1), if_pos hc1]
  · rw [if_neg (by rw [hlt1]; exact hc1), if_neg hc1]
    by_cases hc2 : d < 2 * (n % d)
    · rw [if_pos (hlt2.mpr hc2), if_pos hc2]
      push_cast
      try ring
    · rw [if_neg (by rw [hlt2]; exact hc2), if_neg hc2]
      by_cases hc3 : (n / d) % 2 = 0
      · rw [if_pos (hmod.mpr hc3), if_pos hc3]
      · rw [if_neg (by rw [hmod]; exact hc3), if_neg hc3]
        push_cast
        try ring

theorem ten_pyRound1 (q : Rat) :
    10 * pyRound1 q = (roundHalfEven (10 * q) : Rat) := by
  unfold pyRound1
  ring

theorem tokenTenths_bridge (ip : List Char) (fp : Option (List Char))
    (hipd : ∀ c ∈ ip, c.isDigit = true)
    (hfp : ∀ f, fp = some f → f ≠ [] ∧ ∀ c ∈ f, c.isDigit = true) :
    (tokenTenths (renderTok ip fp) : Rat) = 10 * pyRound1 (tokVal ip fp) := by
  rw [tokenTenths_renderTok ip fp hipd hfp, ten_pyRound1]
  cases fp with
  | none =>
    show ((10 * digitsVal ip : Nat) : Rat) =
      (roundHalfEven (10 * (digitsVal ip : Rat)) : Rat)
    have h1 : 10 * (digitsVal ip : Rat) =
        ((10 * digitsVal ip : Nat) : Rat) / ((1 : Nat) : Rat) := by
      push_cast
      ring
    rw [h1, roundHalfEven_div _ 1 (by norm_num), roundHalfEvenFrac_one]
    push_cast
    ring
  | some f =>
    show ((roundHalfEvenFrac
        (10 * (digitsVal ip * 10 ^ f.length + digitsVal f))
        (10 ^ f.length) : Nat) : Rat) = _
    have hp : ((10 ^ f.length : Nat) : Rat) ≠ 0 := by positivity
    have hq : 10 * tokVal ip (some f) =
        ((10 * (digitsVal ip * 10 ^ f.length + digitsVal f) : Nat) : Rat) /
          ((10 ^ f.length : Nat) : Rat) := by
      show 10 * ((digitsVal ip : Rat) +
        (digitsVal f : Rat) / (10 : Rat) ^ f.length) = _
      push_cast
      field_simp
      try ring
    rw [hq, roundHalfEven_div _ _ (pow_pos (by norm_num) f.length)]
    push_cast
    ring

theorem renderTok_cons (i0 : Char) (ip2 : List Char)
    (fp : Option (List Char)) :
    renderTok (i0 :: ip2) fp = i0 :: renderTok ip2 fp := by
  cases fp <;> rfl

theorem parseHoursReply_some_of (reply tok : List Char)
    (h : extractNumber (pyStrip reply) = some tok) :
    parseHoursReply reply = some (tokenTenths tok) := by
  unfold parseHoursReply
  rw [h]

theorem parseHoursReply_none_of (reply : List Char)
    (h : extractNumber (pyStrip reply) = none) :
    parseHoursReply reply = none := by
  unfold parseHoursReply
  rw [h]

/-- C4: the hours estimator returns nothing exactly when the reply holds no
digit at all, and whenever the stripped reply decomposes as a digit-free
prefix, a numeric token (digits, optionally a dot and digits), and a suffix
that does not extend the token, the estimator returns precisely that first
token's value rounded to one decimal place (carried in tenths), and that
tenths value equals ten times `round(float(token), 1)`. -/
theorem c4_first_number_extraction (reply : List Char) :
    (parseHoursReply reply = none ↔ ∀ c ∈ reply, c.isDigit = false) ∧
    (∀ (pre ip rest : List Char) (fp : Option (List Char)),
      pyStrip reply = pre ++ renderTok ip fp ++ rest →
      (∀ c ∈ pre, c.isDigit = false) →
      ip ≠ [] →
      (∀ c ∈ ip, c.isDigit = true) →
      (∀ f, fp = some f → f ≠ [] ∧ ∀ c ∈ f, c.isDigit = true) →
      (∀ c, rest.head? = some c → c.isDigit = false) →
      (fp = none → ∀ d r2, rest = '.' :: d :: r2 → d.isDigit = false) →
      parseHoursReply reply = some (tokenTenths (renderTok ip fp)) ∧
      (tokenTenths (renderTok ip fp) : Rat) = 10 * pyRound1 (tokVal ip fp)) := by
  constructor
  · constructor
    · intro h c hc
      by_cases hd : c.isDigit = true
      · exfalso
        have hmem : c ∈ pyStrip reply :=
          mem_pyStrip_of_mem c reply hc (digit_not_isPyWs c hd)
        cases hx : extractNumber (pyStrip reply) with
        | none =>
          rw [extractNumber_none_iff] at hx
          have := hx c hmem
          rw [hd] at this
          exact Bool.noConfusion this
        | some tok =>
          rw [parseHoursReply_some_of reply tok hx] at h
          exact Option.noConfusion h
      · simpa using hd
    · intro h
      apply parseHoursReply_none_of
      rw [extractNumber_none_iff]
      intro c hc
      exact h c (mem_of_mem_pyStrip c reply hc)
  · intro pre ip rest fp hsplit hpre hipne hipd hfp hrest hnodot
    have hextract : extractNumber (pyStrip reply) =
        some (renderTok ip fp) := by
      rw [hsplit, List.append_assoc,
        extractNumber_skip pre (renderTok ip fp ++ rest) hpre]
      cases ip with
      | nil => exact absurd rfl hipne
      | cons i0 ip2 =>
        have hi0 : i0.isDigit = true := hipd i0 (by simp)
        rw [renderTok_cons, List.cons_append,
          extractNumber_head_digit _ _ hi0,
          ← List.cons_append, ← renderTok_cons,
          numToken_renderTok (i0 :: ip2) rest fp hipd hfp hrest hnodot]
    exact ⟨parseHoursReply_some_of reply _ hextract,
      tokenTenths_bridge ip fp hipd hfp⟩

/-- Witness for C4 at the reply "I estimate about 2.5 hours.": the first
numeric token is 2.5, returned as 25 tenths. -/
theorem c4_first_number_extraction_witness :
    parseHoursReply ("I estimate about 2.5 hours.".data) = some 25 ∧
    ((25 : Nat) : Rat) = 10 * pyRound1 (tokVal ['2'] (some ['5'])) := by
  have h := (c4_first_number_extraction ("I estimate about 2.5 hours.".data)).2
    ("I estimate about ".data) ['2'] (" hours.".data) (some ['5'])
    (by decide)
    (by decide)
    (by decide)
    (by decide)
    (by intro f hf; injection hf with hf; subst hf; exact ⟨by decide, by decide⟩)
    (by intro c hc; injection hc with hc; subst hc; decide)
    (by intro h0; exact Option.noConfusion h0)
  refine ⟨?_, ?_⟩
  · rw [h.1]
    decide
  · have h2 := h.2
    have h3 : tokenTenths (renderTok ['2'] (some ['5'])) = 25 := by decide
    rw [h3] at h2
    exact h2

/-- C1: an assignment with a due instant is kept iff the instant lies in
the inclusive window `[now, now + days_ahead]`; in particular equality
with `now` is kept, equality with the upper bound is kept, one
microsecond past the upper bound is dropped, and a missing due instant is
dropped; and the aggregator loop body produces a record exactly when the
keep condition holds of the assignment's normalized due instant. -/
theorem c1_due_window (now : Int) (daysAhead : Nat) :
    (∀ d : Int, keepDue now daysAhead (some d) = true ↔
      now ≤ d ∧ d ≤ now + (daysAhead : Int) * 86400000000) ∧
    keepDue now daysAhead (some now) = true ∧
    keepDue now daysAhead (some (now + (daysAhead : Int) * 86400000000)) = true ∧
    keepDue now daysAhead (some (now + (daysAhead : Int) * 86400000000 + 1)) = false ∧
    keepDue now daysAhead none = false ∧
    (∀ (oracle : List Char → Option (List Char)) (dueFormat : Int → List Char)
      (cn : List Char) (a : CanvasAssignment),
      (processAssignmentV2 oracle dueFormat now daysAhead cn a).isSome =
        keepDue now daysAhead (parse_iso_opt a.dueAt)) := by
  refine ⟨?_, ?_, ?_, ?_, rfl, ?_⟩
  · simp [keepDue, dueThreshold, microsecondsPerDay]
  · simp [keepDue, dueThreshold, microsecondsPerDay]
  · simp [keepDue, dueThreshold, microsecondsPerDay]
  · simp [keepDue, dueThreshold, microsecondsPerDay]
  · intro oracle dueFormat cn a
    cases hp : parse_iso_opt a.dueAt with
    | none => simp [processAssignmentV2, hp, keepDue]
    | some d =>
      by_cases hk : keepDue now daysAhead (some d) = true
      · simp [processAssignmentV2, hp, hk]
      · simp only [Bool.not_eq_true] at hk
        simp [processAssignmentV2, hp, hk]

/-- C9: with exactly two stored records and the message "details 3", both
bots reply with the out-of-range error and no detail view; the manus
variant's rendered error names the range "1-2", but AI_BotV2's rendered
error contains "1\-2" and does NOT contain "1-2": its pre-escaped
f-string is escaped a second time, so the backslash survives rendering. -/
theorem c9_out_of_range_message (r1 r2 : AssignmentRecord) :
    handle_text_message ("details 3".data) [(1, r1), (2, r2)] =
      BotReply.outOfRange (errorTextV2 3 2) ∧
    containsSub ("1\\-2".data) (mdRender (errorTextV2 3 2)) = true ∧
    containsSub ("1-2".data) (mdRender (errorTextV2 3 2)) = false ∧
    handle_text_message_manus ("details 3".data) [(1, r1), (2, r2)] =
      BotReply.outOfRange (errorTextManus 3 2) ∧
    containsSub ("1-2".data) (mdRender (errorTextManus 3 2)) = true := by
  refine ⟨rfl, by decide, by decide, rfl, by decide⟩

/-- Counterexample for C9 as stated for AI_BotV2.py: at the concrete
session index of two records the reply is the out-of-range error, yet the
rendered error text does not contain "1-2". -/
theorem c9_counterexample :
    handle_text_message ("details 3".data) [(1, emptyRecord), (2, emptyRecord)] =
      BotReply.outOfRange (errorTextV2 3 2) ∧
    containsSub ("1-2".data) (mdRender (errorTextV2 3 2)) = false := by
  refine ⟨rfl, by decide⟩

/-- C10: in the email-to-SMS variant, a kept assignment with no
description attribute gets its own name substituted as the description:
the produced record's description equals the name, the estimator receives
the name as the description text, and (for a nonempty name) the estimator
sends its prompt rather than skipping. -/
theorem c10_missing_description_default
    (oracle : List Char → Option (List Char)) (dueFormat : Int → List Char)
    (now : Int) (daysAhead : Nat) (cn : List Char) (a : CanvasAssignment)
    (d : Int) (hdesc : a.description = none)
    (hp : parse_iso_opt a.dueAt = some d)
    (hk : keepDue now daysAhead (some d) = true) (hname : a.name ≠ []) :
    processAssignmentSMS oracle dueFormat now daysAhead cn a =
      some { courseName := cn, assignmentName := a.name, due := d,
             description := a.name, htmlUrl := a.htmlUrl.getD ['#'],
             estimatedHours := (estimate_time_via_ai_sms oracle cn a.name
               (dueFormat d) a.name a.htmlUrl).1 } ∧
    (estimate_time_via_ai_sms oracle cn a.name (dueFormat d) a.name
        a.htmlUrl).2 =
      [estimatePromptSMS cn a.name (dueFormat d) a.htmlUrl a.name] := by
  constructor
  · simp [processAssignmentSMS, hp, hk, hdesc]
  · unfold estimate_time_via_ai_sms
    rw [if_neg hname]
    cases ho : oracle (estimatePromptSMS cn a.name (dueFormat d) a.htmlUrl
        a.name) <;> simp [ho]

/-- Witness for C10 at a concrete assignment with a missing description:
the record carries the name as description and the estimate parsed from
the oracle reply "2". -/
theorem c10_missing_description_default_witness :
    processAssignmentSMS (fun _ => some ['2']) (fun _ => [])
        1736937000000000 1 ("Math".data)
        { name := "Essay".data, dueAt := some ("2025-01-15T10:30:00Z".data),
          description := none, htmlUrl := none } =
      some { courseName := "Math".data, assignmentName := "Essay".data,
             due := 1736937000000000, description := "Essay".data,
             htmlUrl := ['#'], estimatedHours := some 20 } := by
  have h := c10_missing_description_default (fun _ => some ['2'])
    (fun _ => []) 1736937000000000 1 ("Math".data)
    { name := "Essay".data, dueAt := some ("2025-01-15T10:30:00Z".data),
      description := none, htmlUrl := none }
    1736937000000000 rfl (by decide) (by decide) (by decide)
  rw [h.1]
  decide
